import Mathlib

/-!
Shallow embedding of the hierarchical code-indexing and hybrid-retrieval
engine (`HierarchicalRAG` and `HybridSearch` classes) of the Task-Guide-MCP
repository, together with proofs about the spec's claims.

Modelling conventions:
* JS numbers that carry scores/similarities are modelled as real numbers
  (the similarity computation divides by `Math.sqrt`); exact integer/string
  computations (hashing, embeddings, complexity) are modelled with `Nat`,
  `Int`, `ℚ` and `String`.
* 32-bit wrap-around (`hash & hash` after `ToInt32`) is modelled explicitly
  with `% 2^32`.
* File-system reads (`fs.readdir`, `fs.readFile`, `fs.stat`) are modelled by
  an explicit `FSEntry` tree carried as an argument; a `readable` flag models
  the try/catch skip-on-error behaviour of the source.
* The SQLite tables are modelled as lists of rows in insertion order;
  `INSERT OR REPLACE` deletes any row with the same primary key and appends
  the new row (SQLite assigns a fresh rowid to the replacement).
* `uuidv4()` is modelled by a fresh-name counter carried in the state.
-/

/-! ### JS string/number primitives -/

/-- `ToInt32` coercion used by JS bitwise operators: wrap into `[-2^31, 2^31)`. -/
def toInt32 (n : Int) : Int := (n + 2 ^ 31) % 2 ^ 32 - 2 ^ 31

/-- One step of `simpleHash`: `hash = ((hash << 5) - hash) + char; hash = hash & hash`.
`hash << 5` coerces to int32 first; the final `& hash` coerces the sum back. -/
def hashStep (h : Int) (c : Char) : Int := toInt32 (toInt32 (h * 32) - h + c.toNat)

/-- Digit character used by `Number.prototype.toString(36)`:
`0`--`9` then `a`--`z`. -/
def digitChar36 (d : Nat) : Char := if d < 10 then Char.ofNat (48 + d) else Char.ofNat (87 + d)

/-- Base-36 digit emitter with explicit fuel (the fuel `n + 1` always
suffices since the argument shrinks by a factor of 36 each step). -/
def toB36Aux : Nat → Nat → List Char
  | 0, _ => []
  | fuel + 1, n =>
    if n < 36 then [digitChar36 n] else toB36Aux fuel (n / 36) ++ [digitChar36 (n % 36)]

/-- Base-36 digit list of a natural number, most significant first,
as produced by `Math.abs(hash).toString(36)`. -/
def toB36 (n : Nat) : List Char := toB36Aux (n + 1) n

/-- `simpleHash` from the source: 32-bit accumulated hash of the char codes,
rendered as a base-36 string of its absolute value. -/
def simpleHash (s : String) : String := String.mk (toB36 (s.data.foldl hashStep 0).natAbs)

/-- `generateEmbedding`: a 1536-slot array of zeroes whose first
`min(hash.length, 1536)` entries are `(hash.charCodeAt(i) - 128) / 128`
(the loop index `i % hash.length` equals `i` because `i < hash.length`). -/
def generateEmbedding (text : String) : List ℚ :=
  let hash := simpleHash text
  let cs := hash.data
  (cs.take 1536).map (fun c => ((c.toNat : ℚ) - 128) / 128) ++
    List.replicate (1536 - min cs.length 1536) 0

/-- Substring test on char lists: the pattern occurs starting at position `i`. -/
def matchAt (cs pat : List Char) (i : Nat) : Bool := (cs.drop i).take pat.length == pat

/-- JS `String.prototype.includes`: some position carries the pattern. -/
def jsIncludes (s sub : String) : Bool :=
  (List.range (s.data.length + 1)).any (fun i => matchAt s.data sub.data i)

/-- JS `\w` word character: `[A-Za-z0-9_]` (ASCII only). -/
def isWordChar (c : Char) : Bool := (c.isAlpha || c.isDigit) || c = '_'

/-- JS `\b` word boundary at position `i` of the char list: exactly one of the
two adjacent positions holds a word character (positions outside the string
count as non-word). -/
def hasBoundary (cs : List Char) (i : Nat) : Bool :=
  (decide (0 < i) && isWordChar (cs.getD (i - 1) ' ')) !=
    (decide (i < cs.length) && isWordChar (cs.getD i ' '))

/-- Number of word-boundary-delimited occurrences of `kw` in `s`, i.e. the
match count of the regex `\b<kw>\b` with the `g` flag.  Counting every
qualifying start position agrees with the left-to-right non-overlapping
regex scan because two boundary-delimited occurrences of one keyword can
never overlap. -/
def countWordOcc (s kw : String) : Nat :=
  ((List.range (s.data.length + 1)).filter
    (fun i => matchAt s.data kw.data i && hasBoundary s.data i
      && hasBoundary s.data (i + kw.data.length))).length

/-- Keyword list of `calculateComplexity`. -/
def complexityKeywords : List String :=
  ["if", "else", "for", "while", "switch", "case", "catch", "&&", "||"]

/-- Match count of `new RegExp('\\b' + kw + '\\b', 'g')` against `content`.
For every keyword except `||` this is the word-boundary occurrence count.
For `||` the built pattern is `\b||\b`, which regex syntax reads as the
three-way alternation of `\b`, the empty pattern and `\b`; the empty
alternative matches at every position, so the global scan yields exactly
`content.length + 1` zero-width matches. -/
def jsRegexCount (content kw : String) : Nat :=
  if kw = "||" then content.data.length + 1 else countWordOcc content kw

/-- `calculateComplexity` from the source: start at 1, add the match count of
`\b<kw>\b` for each keyword. -/
def calculateComplexity (content : String) : Nat :=
  complexityKeywords.foldl (fun acc kw => acc + jsRegexCount content kw) 1

/-- Modelled from the spec: "start at 1, add 1 for every occurrence of each of
a fixed set of control-flow/logical keywords found via whole-word matching".
This is the complexity the spec describes, with `||` counted by whole-word
occurrences like every other keyword. -/
def specCyclomaticComplexity (content : String) : Nat :=
  1 + (complexityKeywords.map (fun kw => countWordOcc content kw)).sum

/-! ### Node ids (base64 of the path, with `+`, `/`, `=` stripped) -/

/-- Standard base64 alphabet. -/
def base64Table : List Char :=
  "ABCDEFGHIJKLMNOPQRSTUVWXYZabcdefghijklmnopqrstuvwxyz0123456789+/".data

def b64Char (n : Nat) : Char := base64Table.getD n 'A'

/-- Base64 encoding of a byte list, processed in groups of three with `=`
padding, as `Buffer.prototype.toString('base64')` produces. -/
def base64Chunks : List Nat → List Char
  | [] => []
  | [a] => [b64Char (a / 4), b64Char (a % 4 * 16), '=', '=']
  | [a, b] => [b64Char (a / 4), b64Char (a % 4 * 16 + b / 16), b64Char (b % 16 * 4), '=']
  | a :: b :: c :: rest =>
    [b64Char (a / 4), b64Char (a % 4 * 16 + b / 16), b64Char (b % 16 * 4 + c / 64),
      b64Char (c % 64)] ++ base64Chunks rest

/-- UTF-8 bytes of one character (as natural numbers below 256), matching
what `Buffer.from(path)` produces per code point. -/
def utf8Bytes (c : Char) : List Nat :=
  let v := c.toNat
  if v ≤ 0x7f then [v]
  else if v ≤ 0x7ff then [0xc0 + v / 64, 0x80 + v % 64]
  else if v ≤ 0xffff then [0xe0 + v / 4096, 0x80 + v / 64 % 64, 0x80 + v % 64]
  else [0xf0 + v / 262144, 0x80 + v / 4096 % 64, 0x80 + v / 64 % 64, 0x80 + v % 64]

/-- `generateNodeId`: base64 of the UTF-8 bytes of the path with the
characters `+`, `/`, `=` removed. -/
def generateNodeId (p : String) : String :=
  String.mk ((base64Chunks ((p.data.map utf8Bytes).foldr (· ++ ·) [])).filter
    (fun c => !(c == '+' || c == '/' || c == '=')))

/-! ### Hierarchy builder (`HierarchicalRAG`) -/

/-- `HierarchicalNode` of the source, with the `metadata` object flattened
into the `size`/`language`/`complexity`/`dependencies` fields. -/
structure HierarchicalNode where
  id : String
  type : String
  name : String
  path : String
  parentId : Option String
  children : List String
  content : Option String
  size : Option Nat
  language : Option String
  complexity : Option Nat
  dependencies : Option (List String)
deriving Repr, DecidableEq

/-- The builder's `this.nodes` JS `Map`, as its entry list in insertion
order (keys are the node ids). -/
abbrev NodeMap := List HierarchicalNode

/-- JS `Map.prototype.set`: replace in place when the key exists (insertion
order is kept), otherwise append. -/
def mapSet (m : NodeMap) (n : HierarchicalNode) : NodeMap :=
  if m.any (fun x => x.id == n.id) then m.map (fun x => if x.id == n.id then n else x)
  else m ++ [n]

/-- JS `Map.prototype.get` on the node map. -/
def getNode (m : NodeMap) (i : String) : Option HierarchicalNode :=
  m.find? (fun x => x.id == i)

/-- Element kinds the regex extractor can produce (`function`, `class`,
`interface`). -/
inductive ElemKind where
  | efunction
  | eclass
  | einterface
deriving Repr, DecidableEq

def elemKindStr : ElemKind → String
  | .efunction => "function"
  | .eclass => "class"
  | .einterface => "interface"

/-- One candidate element found by `extractCodeElements` (name, kind and the
matched source slice). -/
structure CodeElement where
  name : String
  kind : ElemKind
  content : String
deriving Repr, DecidableEq

/-- Extraction function type: `extractCodeElements(content, language)`.  The
source implements it with three regexes over C-family syntax; the hierarchy
builder is modelled parametrically in it, since no claim depends on the exact
regex language. -/
abbrev Extractor := String → String → List CodeElement

/-- Dependency-extraction function type: `extractDependencies(content)`
captures the module specifier of each `import ... from '...'` statement. -/
abbrev DepExtractor := String → List String

/-- A directory entry as `fs.readdir(..., { withFileTypes: true })` reports
it.  The `readable` flag on a directory models whether reading its entries
succeeds (the source skips unreadable directories with a logged warning);
on a file it models whether `fs.readFile` succeeds during analysis. -/
inductive FSEntry where
  | file (name : String) (readable : Bool) (size : Nat) (content : String)
  | dir (name : String) (readable : Bool) (entries : List FSEntry)
deriving Repr

/-- Extension allow-list of `isCodeFile`. -/
def codeExtensions : List String :=
  [".ts", ".js", ".tsx", ".jsx", ".py", ".java", ".cpp", ".c", ".cs", ".go", ".rs",
    ".php", ".rb"]

/-- List-level `String.prototype.endsWith`. -/
def strEndsWith (s suf : String) : Bool :=
  matchAt s.data suf.data (s.data.length - suf.data.length)

def isCodeFile (filename : String) : Bool :=
  codeExtensions.any (fun ext => strEndsWith filename ext)

/-- `path.extname`: the substring from the last `.` that is not the first
character of the name; empty when there is no such dot. -/
def extname (name : String) : String :=
  let cs := name.data
  match ((List.range cs.length).filter
      (fun i => decide (0 < i) && (cs.getD i ' ' == '.'))).getLast? with
  | some i => String.mk (cs.drop i)
  | none => ""

def languageMap : List (String × String) :=
  [(".ts", "typescript"), (".js", "javascript"), (".tsx", "typescript"),
    (".jsx", "javascript"), (".py", "python"), (".java", "java"), (".cpp", "cpp"),
    (".c", "c"), (".cs", "csharp"), (".go", "go"), (".rs", "rust"), (".php", "php"),
    (".rb", "ruby")]

def getLanguage (filename : String) : String :=
  ((languageMap.find? (fun p => p.1 == extname filename)).map Prod.snd).getD "unknown"

mutual
/-- `getDirectorySize` on one entry: a file contributes its byte size, a
directory the recursive sum of its entries (0 when `readdir` fails, because
the catch branch returns 0). -/
def entrySize : FSEntry → Nat
  | .file _ _ sz _ => sz
  | .dir _ readable es => if readable then entrySizeList es else 0
def entrySizeList : List FSEntry → Nat
  | [] => 0
  | e :: rest => entrySize e + entrySizeList rest
end

/-- `path.join(dirPath, name)` for the paths the builder constructs. -/
def joinPath (dirPath name : String) : String := dirPath ++ "/" ++ name

mutual
/-- `scanDirectory`: walk the entries of `dirPath` in order, creating a node
per directory (recursing into it when readable) and per recognized code
file.  Non-code files produce no node. -/
def scanEntry (dirPath : String) (parentId : Option String) (m : NodeMap) :
    FSEntry → NodeMap
  | .dir name readable es =>
    let fullPath := joinPath dirPath name
    let nodeId := generateNodeId fullPath
    let node : HierarchicalNode :=
      { id := nodeId, type := "directory", name := name, path := fullPath,
        parentId := parentId, children := [],
        content := none, size := some (if readable then entrySizeList es else 0),
        language := none, complexity := none, dependencies := none }
    let m1 := mapSet m node
    if readable then scanEntries fullPath (some nodeId) m1 es else m1
  | .file name _ sz _ =>
    if isCodeFile name then
      let fullPath := joinPath dirPath name
      mapSet m
        { id := generateNodeId fullPath, type := "file", name := name, path := fullPath,
          parentId := parentId, children := [],
          content := none, size := some sz, language := some (getLanguage name),
          complexity := none, dependencies := none }
    else m
def scanEntries (dirPath : String) (parentId : Option String) (m : NodeMap) :
    List FSEntry → NodeMap
  | [] => m
  | e :: rest => scanEntries dirPath parentId (scanEntry dirPath parentId m e) rest
end

mutual
/-- All `(fullPath, readable, content)` triples of the files reachable under
a readable directory chain; used to model `fs.readFile(node.path)` during
`analyzeFiles`. -/
def fsFiles (dirPath : String) : FSEntry → List (String × Bool × String)
  | .file name readable _ content => [(joinPath dirPath name, readable, content)]
  | .dir name readable es =>
    if readable then fsFilesList (joinPath dirPath name) es else []
def fsFilesList (dirPath : String) : List FSEntry → List (String × Bool × String)
  | [] => []
  | e :: rest => fsFiles dirPath e ++ fsFilesList dirPath rest
end

/-- The files reachable under the scanned root: `scanDirectory` is entered
with `rootPath` itself, so the entry paths start at `rootPath`. -/
def rootFiles (rootPath : String) : FSEntry → List (String × Bool × String)
  | .dir _ readable es => if readable then fsFilesList rootPath es else []
  | .file _ _ _ _ => []

/-- File-content lookup: `fs.readFile(path, 'utf-8')`, `none` when the read
fails. -/
def readFileAt (files : List (String × Bool × String)) (p : String) : Option String :=
  (files.find? (fun f => f.1 == p)).bind (fun f => if f.2.1 then some f.2.2 else none)

/-- The child node `analyzeFiles` creates for one extracted element: its id
is the parent file's id joined with the element name by `_`. -/
def elementNode (deps : DepExtractor) (fileNode : HierarchicalNode)
    (el : CodeElement) : HierarchicalNode :=
  { id := fileNode.id ++ "_" ++ el.name, type := elemKindStr el.kind, name := el.name,
    path := fileNode.path, parentId := some fileNode.id, children := [],
    content := some el.content, size := none, language := fileNode.language,
    complexity := some (calculateComplexity el.content),
    dependencies := some (deps el.content) }

/-- `analyzeFiles`: for every file node, read its content into the node and
append a child node per extracted element (a failed read skips the file).
The JS loop iterates the live map, but the nodes it appends are never of
type `file`, so iterating the snapshot is equivalent. -/
def analyzeFiles (extract : Extractor) (deps : DepExtractor)
    (files : List (String × Bool × String)) (m : NodeMap) : NodeMap :=
  m.foldl
    (fun acc n =>
      if n.type == "file" then
        match readFileAt files n.path with
        | none => acc
        | some content =>
          let acc1 := mapSet acc { n with content := some content }
          (extract content (n.language.getD "unknown")).foldl
            (fun a el => mapSet a (elementNode deps n el)) acc1
      else acc)
    m

/-- Append `cid` to the `children` of the node with id `pid`. -/
def pushChild (m : NodeMap) (pid cid : String) : NodeMap :=
  m.map (fun x => if x.id == pid then { x with children := x.children ++ [cid] } else x)

/-- `buildRelationships`: for every node with a parent id whose parent is
present, push the node's id onto the parent's `children`.  `parentId` fields
never change during the pass, so folding over the snapshot matches the live
iteration. -/
def buildRelationships (m : NodeMap) : NodeMap :=
  m.foldl
    (fun acc n =>
      match n.parentId with
      | some p => if acc.any (fun x => x.id == p) then pushChild acc p n.id else acc
      | none => acc)
    m

/-- `buildHierarchy(rootPath)` starting from the builder's current node map
`m0` (the source never clears `this.nodes`, so consecutive builds
accumulate).  `root` is what the file system holds at `rootPath`; when
`rootPath` is unreadable or not a directory, `fs.readdir` throws and the
catch leaves the map untouched. -/
def buildHierarchyFrom (extract : Extractor) (deps : DepExtractor)
    (rootPath : String) (root : FSEntry) (m0 : NodeMap) : NodeMap :=
  let m1 :=
    match root with
    | .dir _ true es => scanEntries rootPath none m0 es
    | _ => m0
  let m2 := analyzeFiles extract deps (rootFiles rootPath root) m1
  buildRelationships m2

/-- `buildHierarchy(rootPath)` on a fresh builder (empty node map). -/
def buildHierarchy (extract : Extractor) (deps : DepExtractor)
    (rootPath : String) (root : FSEntry) : NodeMap :=
  buildHierarchyFrom extract deps rootPath root []

/-! ### Record store and indexer (`HybridSearch`) -/

/-- A `vectors` table row (the `MetadataVector` of the source, with the
`metadata` JSON object flattened; the never-written `lineStart`/`lineEnd`
fields are omitted).  `createdAt` is a clock reading. -/
structure MetadataVector where
  id : String
  guidanceId : String
  type : String
  content : String
  embedding : List ℚ
  source : String
  path : String
  hierarchy : Option (List String)
  tags : Option (List String)
  createdAt : Nat
deriving Repr, DecidableEq

/-- A `structural_index` table row. -/
structure StructuralRow where
  id : String
  guidance_id : String
  node_id : String
  hierarchy_path : String
  tags : String
  content_hash : String
  created_at : Nat
deriving Repr, DecidableEq

/-- A `knowledge_graph` table row. -/
structure GraphRow where
  id : String
  source_id : String
  target_id : String
  relation_type : String
  weight : ℝ
  created_at : Nat

/-- The mutable state of a `HybridSearch` instance: the three SQLite tables
(in rowid order), the shared `HierarchicalRAG` node map, the `uuidv4()`
freshness counter and a clock for `createdAt`. -/
structure SearchState where
  vectors : List MetadataVector
  structuralIndex : List StructuralRow
  knowledgeGraph : List GraphRow
  ragNodes : NodeMap
  uuidCtr : Nat
  time : Nat

def emptyState : SearchState :=
  { vectors := [], structuralIndex := [], knowledgeGraph := [], ragNodes := [],
    uuidCtr := 0, time := 0 }

/-- Rendering of the `k`-th fresh identifier.  `uuidv4()` only promises
distinctness, so the spelling is arbitrary; this one makes injectivity
immediate. -/
def uuidStr (k : Nat) : String := "uuid-" ++ String.mk (List.replicate k 'x')

/-- `uuidv4()`: a fresh identifier, distinct from every previously drawn one. -/
def freshUuid (st : SearchState) : String × SearchState :=
  (uuidStr st.uuidCtr, { st with uuidCtr := st.uuidCtr + 1 })

/-- SQLite `INSERT OR REPLACE`: delete any row with the same primary key,
then append the new row (the replacement gets a fresh rowid, hence moves to
the end of `SELECT *` order). -/
def upsertRow {α : Type} (key : α → String) (rows : List α) (r : α) : List α :=
  rows.filter (fun x => !(key x == key r)) ++ [r]

/-- `getParent`: follow `parentId` through the node map; a falsy (absent or
empty) parent id yields no parent. -/
def getParent (m : NodeMap) (n : HierarchicalNode) : Option HierarchicalNode :=
  match n.parentId with
  | none => none
  | some p => if p == "" then none else getNode m p

/-- Tail of `getHierarchyPath`'s `while (currentNode)` loop, with fuel.  Real
builds have acyclic parent chains of length at most the map size, so the
fuel `m.length + 1` never runs out there. -/
def hierarchyPathAux (m : NodeMap) : Nat → Option HierarchicalNode → List String → List String
  | _, none, acc => acc
  | 0, some _, acc => acc
  | fuel + 1, some n, acc => hierarchyPathAux m fuel (getParent m n) (n.name :: acc)

/-- `getHierarchyPath`: ancestor names from the root down to the node. -/
def getHierarchyPath (m : NodeMap) (n : HierarchicalNode) : List String :=
  hierarchyPathAux m (m.length + 1) (some n) []

/-- `extractTags` for a hierarchy node: truthy language, truthy type, and a
complexity band with cut points above 10 and above 5. -/
def extractTags (n : HierarchicalNode) : List String :=
  (match n.language with
    | some l => if l == "" then [] else ["lang:" ++ l]
    | none => [])
  ++ (if n.type == "" then [] else ["type:" ++ n.type])
  ++ (match n.complexity with
    | some c =>
      if c == 0 then []
      else [if 10 < c then "complexity:high"
            else if 5 < c then "complexity:medium" else "complexity:low"]
    | none => [])

/-- JS truthiness of `node.content`: present and non-empty. -/
def contentTruthy (n : HierarchicalNode) : Bool :=
  match n.content with
  | some c => !(c == "")
  | none => false

/-- `storeStructuralIndex`: one `structural_index` row per indexed node,
under a fresh uuid primary key. -/
def storeStructuralIndex (guidanceId : String) (rag : NodeMap) (n : HierarchicalNode)
    (st : SearchState) : SearchState :=
  let idSt := freshUuid st
  { idSt.2 with
    structuralIndex := upsertRow (fun x => x.id) idSt.2.structuralIndex
      { id := idSt.1, guidance_id := guidanceId, node_id := n.id,
        hierarchy_path := String.intercalate "/" (getHierarchyPath rag n),
        tags := String.intercalate "," (extractTags n),
        content_hash := simpleHash (n.content.getD ""),
        created_at := idSt.2.time } }

/-- One loop iteration of `indexCodebase`: a node with truthy content gets a
vector row under a fresh uuid and then a structural row; other nodes are
skipped. -/
def codebaseStep (guidanceId : String) (rag : NodeMap) (s : SearchState)
    (n : HierarchicalNode) : SearchState :=
  if contentTruthy n then
    let c := n.content.getD ""
    let idSt := freshUuid s
    let v : MetadataVector :=
      { id := idSt.1, guidanceId := guidanceId, type := "codebase", content := c,
        embedding := generateEmbedding c, source := n.path, path := n.path,
        hierarchy := some (getHierarchyPath rag n), tags := some (extractTags n),
        createdAt := idSt.2.time }
    let s2 := { idSt.2 with vectors := upsertRow (fun x => x.id) idSt.2.vectors v }
    storeStructuralIndex guidanceId rag n s2
  else s

/-- `indexCodebase`: rebuild the hierarchy (accumulating onto the shared
builder's node map), then store one vector row and one structural row per
node with truthy content, each under a fresh uuid. -/
def indexCodebase (extract : Extractor) (deps : DepExtractor)
    (guidanceId rootPath : String) (root : FSEntry) (st : SearchState) : SearchState :=
  let rag := buildHierarchyFrom extract deps rootPath root st.ragNodes
  let st1 := { st with ragNodes := rag }
  rag.foldl (codebaseStep guidanceId rag) st1

/-- An external document given to the indexer.  `text` models the result of
`extractDocumentContent` (file read plus extension dispatch, an external
collaborator): `none` for an unsupported extension or a failed read, and for
`.json` files the canonical re-serialization of the parsed content. -/
structure ExternalDoc where
  path : String
  text : Option String

def docKeywords : List String :=
  ["api", "function", "class", "interface", "config", "setup", "guide"]

/-- `extractDocumentTags`: markdown marker, fenced-code marker and keyword
hits on the lowercased content. -/
def extractDocumentTags (content : String) : List String :=
  (if jsIncludes content "# " then ["type:markdown"] else [])
  ++ (if jsIncludes content "```" then ["type:code-documentation"] else [])
  ++ (docKeywords.filter (fun k => jsIncludes content.toLower k)).map
      (fun k => "keyword:" ++ k)

/-- `indexExternalDocuments`: store one `external_doc` vector row per
document with truthy extracted content, under a fresh uuid; failures and
unsupported formats are skipped. -/
def indexExternalDocuments (guidanceId : String) (docs : List ExternalDoc)
    (st : SearchState) : SearchState :=
  docs.foldl
    (fun s d =>
      match d.text with
      | none => s
      | some content =>
        if content == "" then s
        else
          let idSt := freshUuid s
          let v : MetadataVector :=
            { id := idSt.1, guidanceId := guidanceId, type := "external_doc",
              content := content, embedding := generateEmbedding content,
              source := d.path, path := d.path, hierarchy := none,
              tags := some (extractDocumentTags content), createdAt := idSt.2.time }
          { idSt.2 with vectors := upsertRow (fun x => x.id) idSt.2.vectors v })
    st

/-- `SELECT * FROM vectors WHERE guidance_id = ?`, in rowid order. -/
def getVectorsByGuidance (st : SearchState) (guidanceId : String) : List MetadataVector :=
  st.vectors.filter (fun v => v.guidanceId == guidanceId)

/-- `calculateSimilarity`: cosine similarity, with the loop running over the
indices of the first embedding (both embeddings have the store's fixed
length 1536 whenever they were produced by this module). -/
noncomputable def calculateSimilarity (e1 e2 : List ℚ) : ℝ :=
  let dotProduct : ℚ := ∑ i ∈ Finset.range e1.length, e1.getD i 0 * e2.getD i 0
  let norm1 : ℚ := ∑ i ∈ Finset.range e1.length, e1.getD i 0 * e1.getD i 0
  let norm2 : ℚ := ∑ i ∈ Finset.range e1.length, e2.getD i 0 * e2.getD i 0
  (dotProduct : ℝ) / (Real.sqrt (norm1 : ℝ) * Real.sqrt (norm2 : ℝ))

/-- `addRelation`: insert a `knowledge_graph` row under a fresh uuid. -/
def addRelation (sourceId targetId relationType : String) (weight : ℝ)
    (st : SearchState) : SearchState :=
  let idSt := freshUuid st
  { idSt.2 with
    knowledgeGraph := upsertRow (fun x => x.id) idSt.2.knowledgeGraph
      { id := idSt.1, source_id := sourceId, target_id := targetId,
        relation_type := relationType, weight := weight, created_at := idSt.2.time } }

/-- The index pairs `(i, j)` with `i < j` of the double loop of
`buildKnowledgeGraph`, in loop order. -/
def utPairs {α : Type} : List α → List (α × α)
  | [] => []
  | x :: xs => xs.map (fun y => (x, y)) ++ utPairs xs

/-- `buildKnowledgeGraph`: pairwise cosine similarity over the collection's
vector rows; every pair strictly above the 0.7 threshold is stored as a
`similar` edge whose weight is the similarity itself. -/
noncomputable def buildKnowledgeGraph (guidanceId : String) (st : SearchState) :
    SearchState :=
  (utPairs (getVectorsByGuidance st guidanceId)).foldl
    (fun s p =>
      let similarity := calculateSimilarity p.1.embedding p.2.embedding
      if 0.7 < similarity then addRelation p.1.id p.2.id "similar" similarity s else s)
    st

/-- `indexGuidance`: codebase indexing when a truthy codebase path is given,
then external documents when a non-empty list is given, then the knowledge
graph pass. -/
noncomputable def indexGuidance (extract : Extractor) (deps : DepExtractor)
    (guidanceId : String) (codebase : Option (String × FSEntry))
    (externalDocs : Option (List ExternalDoc)) (st : SearchState) : SearchState :=
  let st1 :=
    match codebase with
    | some rp => if rp.1 == "" then st else indexCodebase extract deps guidanceId rp.1 rp.2 st
    | none => st
  let st2 :=
    match externalDocs with
    | some ds => if 0 < ds.length then indexExternalDocuments guidanceId ds st1 else st1
    | none => st1
  buildKnowledgeGraph guidanceId st2

/-! ### Query engine -/

/-- A `SearchResult` of the source, with the `metadata` object flattened. -/
structure SearchResult where
  id : String
  type : String
  content : String
  score : ℝ
  source : String
  path : String
  hierarchy : Option (List String)
  relevance : List String

/-- `search` parameters.  The source defaults are `type = 'all'`,
`limit = 10`, `threshold = 0.5`. -/
structure SearchParams where
  query : String
  guidanceId : Option String
  type : String
  limit : Nat
  threshold : ℝ

/-- Stable insertion step for descending sort by score: the new element goes
after every element with a score not below its own, as the stable JS
`sort((a, b) => b.score - a.score)` arranges. -/
noncomputable def insertDesc (r : SearchResult) : List SearchResult → List SearchResult
  | [] => [r]
  | x :: xs => if x.score < r.score then r :: x :: xs else x :: insertDesc r xs

/-- Stable descending sort by score. -/
noncomputable def sortByScoreDesc : List SearchResult → List SearchResult
  | [] => []
  | x :: xs => insertDesc x (sortByScoreDesc xs)

/-- `vectorSearch`: embed the query, score every row surviving the optional
`guidance_id` and truthy non-`all` `type` filters by cosine similarity, sort
descending and keep the first `lim`. -/
noncomputable def vectorSearch (st : SearchState) (query : String)
    (guidanceId : Option String) (ty : String) (lim : Nat) : List SearchResult :=
  let queryEmbedding := generateEmbedding query
  let base : List MetadataVector :=
    match guidanceId with
    | some g => st.vectors.filter (fun v => v.guidanceId == g)
    | none => st.vectors
  let rows := base.filter (fun v => if ty != "" && ty != "all" then v.type == ty else true)
  let results := rows.map
    (fun row =>
      ({ id := row.id, type := row.type, content := row.content,
         score := calculateSimilarity queryEmbedding row.embedding,
         source := row.source, path := row.path, hierarchy := row.hierarchy,
         relevance := ["vector_similarity"] } : SearchResult))
  (sortByScoreDesc results).take lim

/-- SQLite `LIKE '%pat%'`: case-insensitive (ASCII) containment. -/
def sqlLikeContains (s pat : String) : Bool := jsIncludes s.toLower pat.toLower

/-- `calculateStructuralScore`: name hit 10, path hit 5, truthy-content hit
3, normalized by the maximal attainable 18. -/
noncomputable def calculateStructuralScore (node : HierarchicalNode) (query : String) : ℝ :=
  ((if jsIncludes node.name.toLower query then (10 : ℝ) else 0)
    + (if jsIncludes node.path.toLower query then (5 : ℝ) else 0)
    + (if contentTruthy node && jsIncludes (node.content.getD "").toLower query
        then (3 : ℝ) else 0)) / 18

/-- `structuralSearch`: rows surviving the optional `guidance_id` filter and
the `LIKE` match on `hierarchy_path` or `tags`, resolved through the live
node map (rows whose node is gone are dropped), scored structurally, sorted
descending, first `lim` kept.  The `type` parameter is accepted but unused,
as in the source. -/
noncomputable def structuralSearch (st : SearchState) (query : String)
    (guidanceId : Option String) (ty : String) (lim : Nat) : List SearchResult :=
  let queryLower := query.toLower
  let base : List StructuralRow :=
    match guidanceId with
    | some g => st.structuralIndex.filter (fun r => r.guidance_id == g)
    | none => st.structuralIndex
  let rows := base.filter
    (fun r => sqlLikeContains r.hierarchy_path queryLower
      || sqlLikeContains r.tags queryLower)
  let results := rows.filterMap
    (fun row =>
      (getNode st.ragNodes row.node_id).map
        (fun node =>
          ({ id := row.id, type := "code", content := node.content.getD "",
             score := calculateStructuralScore node queryLower,
             source := node.path, path := node.path,
             hierarchy := some (getHierarchyPath st.ragNodes node),
             relevance := ["structural_match"] } : SearchResult)))
  let _ := ty
  (sortByScoreDesc results).take lim

/-- `graphSearch`: the source leaves the traversal unimplemented and returns
an empty list. -/
def graphSearch (st : SearchState) (query : String) (guidanceId : Option String)
    (lim : Nat) : List SearchResult :=
  let _ := (st, query, guidanceId, lim)
  []

/-- JS `[...new Set(l)]`: deduplicate keeping first occurrences. -/
def jsSetDedup : List String → List String
  | [] => []
  | x :: xs => x :: jsSetDedup (xs.filter (fun y => !(y == x)))
termination_by l => l.length
decreasing_by
  simp only [List.length_cons]
  exact Nat.lt_succ_of_le (List.length_filter_le _ _)

/-- One `combined.set / Math.max` step of `combineResults` at strategy
weight `w`: an id already present keeps its position and takes the maximum
of its score and the new weighted score (accumulating relevance tags); a new
id is appended with its weighted score. -/
noncomputable def addWeighted (w : ℝ) (combined : List SearchResult)
    (result : SearchResult) : List SearchResult :=
  if combined.any (fun x => x.id == result.id) then
    combined.map
      (fun x =>
        if x.id == result.id then
          { x with score := max x.score (result.score * w),
                   relevance := jsSetDedup (x.relevance ++ result.relevance) }
        else x)
  else combined ++ [{ result with score := result.score * w }]

/-- `combineResults`: fold the three strategy lists into the insertion-order
map at weights 0.4 / 0.3 / 0.3, then sort the values by score descending. -/
noncomputable def combineResults (vectorResults structuralResults graphResults :
    List SearchResult) : List SearchResult :=
  sortByScoreDesc
    (graphResults.foldl (addWeighted 0.3)
      (structuralResults.foldl (addWeighted 0.3)
        (vectorResults.foldl (addWeighted 0.4) [])))

/-- `search`: run the three strategies (vector and structural at `2 * limit`
candidates), fuse them, and only then apply the threshold cutoff
`score >= threshold` followed by truncation to `limit`.  The state is
returned unchanged: the body only reads. -/
noncomputable def search (p : SearchParams) (st : SearchState) :
    SearchState × List SearchResult :=
  let vectorResults := vectorSearch st p.query p.guidanceId p.type (p.limit * 2)
  let structuralResults := structuralSearch st p.query p.guidanceId p.type (p.limit * 2)
  let graphResults := graphSearch st p.query p.guidanceId p.limit
  let combinedResults := combineResults vectorResults structuralResults graphResults
  (st, (combinedResults.filter (fun r => decide (p.threshold ≤ r.score))).take p.limit)

/-! ### General helper lemmas -/

theorem foldl_preserves {α σ : Type _} (P : σ → Prop) (f : σ → α → σ)
    (h : ∀ s a, P s → P (f s a)) : ∀ (l : List α) (s : σ), P s → P (l.foldl f s) := by
  intro l
  induction l with
  | nil => intro s hs; exact hs
  | cons a l ih => intro s hs; exact ih _ (h s a hs)

theorem mem_upsertRow {α : Type _} (key : α → String) (rows : List α) (r x : α)
    (hx : x ∈ upsertRow key rows r) : x ∈ rows ∨ x = r := by
  unfold upsertRow at hx
  rcases List.mem_append.mp hx with h | h
  · exact Or.inl (List.mem_of_mem_filter h)
  · exact Or.inr (List.mem_singleton.mp h)

/-! ### Embedding dimensionality -/

theorem length_generateEmbedding (text : String) :
    (generateEmbedding text).length = 1536 := by
  unfold generateEmbedding
  simp only [List.length_append, List.length_map, List.length_take, List.length_replicate]
  omega

/-- Every vector row in the store has the fixed embedding dimensionality. -/
def EmbeddingsDim (st : SearchState) : Prop :=
  ∀ v ∈ st.vectors, v.embedding.length = 1536

theorem vectors_storeStructuralIndex (g : String) (rag : NodeMap)
    (n : HierarchicalNode) (st : SearchState) :
    (storeStructuralIndex g rag n st).vectors = st.vectors := rfl

theorem vectors_addRelation (a b c : String) (w : ℝ) (st : SearchState) :
    (addRelation a b c w st).vectors = st.vectors := rfl

theorem vectors_buildKnowledgeGraph (g : String) (st : SearchState) :
    (buildKnowledgeGraph g st).vectors = st.vectors := by
  unfold buildKnowledgeGraph
  generalize utPairs (getVectorsByGuidance st g) = l
  induction l generalizing st with
  | nil => rfl
  | cons p l ih =>
    simp only [List.foldl_cons]
    rw [ih]
    split
    · rw [vectors_addRelation]
    · rfl

theorem embDim_indexCodebase (extract : Extractor) (deps : DepExtractor)
    (gid rootPath : String) (root : FSEntry) (st : SearchState)
    (h : EmbeddingsDim st) :
    EmbeddingsDim (indexCodebase extract deps gid rootPath root st) := by
  unfold indexCodebase
  refine foldl_preserves EmbeddingsDim _ ?_ _ _ ?_
  · intro s n hs
    unfold codebaseStep
    split
    · intro v hv
      rw [vectors_storeStructuralIndex] at hv
      rcases mem_upsertRow _ _ _ _ hv with hv | hv
      · exact hs v hv
      · subst hv; exact length_generateEmbedding _
    · exact hs
  · exact h

theorem embDim_indexExternalDocuments (gid : String) (docs : List ExternalDoc)
    (st : SearchState) (h : EmbeddingsDim st) :
    EmbeddingsDim (indexExternalDocuments gid docs st) := by
  unfold indexExternalDocuments
  refine foldl_preserves EmbeddingsDim _ ?_ _ _ h
  intro s d hs
  dsimp only
  split
  · exact hs
  · split
    · exact hs
    · intro v hv
      rcases mem_upsertRow _ _ _ _ hv with hv | hv
      · exact hs v hv
      · subst hv; exact length_generateEmbedding _

theorem embDim_indexGuidance (extract : Extractor) (deps : DepExtractor)
    (gid : String) (cb : Option (String × FSEntry)) (docs : Option (List ExternalDoc))
    (st : SearchState) (h : EmbeddingsDim st) :
    EmbeddingsDim (indexGuidance extract deps gid cb docs st) := by
  unfold indexGuidance
  dsimp only
  intro v hv
  rw [vectors_buildKnowledgeGraph] at hv
  revert v hv
  have h1 : EmbeddingsDim (match cb with
      | some rp => if rp.1 == "" then st else indexCodebase extract deps gid rp.1 rp.2 st
      | none => st) := by
    match cb with
    | none => exact h
    | some rp =>
      dsimp only
      split
      · exact h
      · exact embDim_indexCodebase _ _ _ _ _ _ h
  match docs with
  | none => exact h1
  | some ds =>
    dsimp only
    split
    · exact embDim_indexExternalDocuments _ _ _ h1
    · exact h1

/-- The trivial extractor (no elements found); used for concrete instances. -/
def emptyExtractor : Extractor := fun _ _ => []

/-- The trivial dependency extractor; used for concrete instances. -/
def emptyDepExtractor : DepExtractor := fun _ => []

theorem uuidStr_injective : Function.Injective uuidStr := by
  intro a b h
  unfold uuidStr at h
  have hd : ("uuid-" ++ String.mk (List.replicate a 'x')).data
      = ("uuid-" ++ String.mk (List.replicate b 'x')).data := by rw [h]
  simp only [String.data_append] at hd
  have := List.append_cancel_left hd
  have hlen := congrArg List.length this
  simpa using hlen

/-! ### Claim C7: the complexity metric -/

/-- Claim C7: "the computed complexity metric equals 1 plus, for each keyword
in the fixed set, the number of whole-word occurrences of that keyword".
The code disagrees: the pattern built for `||` is `\b||\b`, an alternation
with an empty branch that matches at every position, so `calculateComplexity`
adds `content.length + 1` for `||` on every input.  On the keyword-free
content `"a"` the code yields 3 while the claimed metric yields 1. -/
theorem claim_C7_complexity_pipe_bug :
    calculateComplexity "a" = 3 ∧ specCyclomaticComplexity "a" = 1 := by
  constructor <;> decide

/-! ### Claim C6: fixed embedding dimensionality -/

/-- Claim C6: every embedding generated at index or query time has length
exactly 1536, and indexing preserves the store invariant that every stored
vector row's embedding has length 1536. -/
theorem claim_C6_embedding_dim :
    (∀ text, (generateEmbedding text).length = 1536) ∧
    (∀ extract deps gid cb docs st, EmbeddingsDim st →
      EmbeddingsDim (indexGuidance extract deps gid cb docs st)) :=
  ⟨length_generateEmbedding, embDim_indexGuidance⟩

theorem claim_C6_embedding_dim_witness :
    (generateEmbedding "a").length = 1536 ∧
    EmbeddingsDim (indexGuidance emptyExtractor emptyDepExtractor "g" none none
      emptyState) :=
  ⟨claim_C6_embedding_dim.1 "a",
    claim_C6_embedding_dim.2 emptyExtractor emptyDepExtractor "g" none none emptyState
      (by intro v hv; simp [emptyState] at hv)⟩

/-! ### Claim C4: parent references in the built hierarchy -/

/-- The ids present in a node map. -/
def nodeIds (m : NodeMap) : List String := m.map (fun n => n.id)

theorem mem_mapSet_elim {m : NodeMap} {n x : HierarchicalNode}
    (hx : x ∈ mapSet m n) : x ∈ m ∨ x = n := by
  unfold mapSet at hx
  split at hx
  · rcases List.mem_map.mp hx with ⟨y, hy, hyx⟩
    by_cases h : y.id == n.id
    · right; rw [← hyx]; simp [h]
    · left; rw [← hyx]; simpa [h] using hy
  · rcases List.mem_append.mp hx with h | h
    · exact Or.inl h
    · exact Or.inr (List.mem_singleton.mp h)

theorem mem_nodeIds_mapSet_of {m : NodeMap} {n : HierarchicalNode} {i : String}
    (h : i ∈ nodeIds m) : i ∈ nodeIds (mapSet m n) := by
  unfold mapSet
  split
  · rcases List.mem_map.mp h with ⟨y, hy, hyx⟩
    refine List.mem_map.mpr ⟨if y.id == n.id then n else y, ?_, ?_⟩
    · exact List.mem_map.mpr ⟨y, hy, rfl⟩
    · by_cases hc : y.id == n.id
      · simp only [hc, if_true]
        rw [← hyx]
        exact (eq_of_beq hc).symm
      · have hcf : (y.id == n.id) = false := by simpa using hc
        simp only [hcf, Bool.false_eq_true, if_false]
        exact hyx
  · unfold nodeIds
    rw [List.map_append]
    exact List.mem_append_left _ h

theorem mem_nodeIds_mapSet_self (m : NodeMap) (n : HierarchicalNode) :
    n.id ∈ nodeIds (mapSet m n) := by
  unfold mapSet
  split
  · rename_i hany
    rcases List.any_eq_true.mp hany with ⟨y, hy, hyid⟩
    refine List.mem_map.mpr ⟨if y.id == n.id then n else y, ?_, ?_⟩
    · exact List.mem_map.mpr ⟨y, hy, rfl⟩
    · simp [hyid]
  · unfold nodeIds
    rw [List.map_append]
    exact List.mem_append_right _ (by simp)

/-- Every non-null `parentId` in the map references a node present in the
map. -/
def ParentsPresent (m : NodeMap) : Prop :=
  ∀ n ∈ m, ∀ p, n.parentId = some p → p ∈ nodeIds m

/-- The parent-id argument threaded through `scanDirectory` is either null
or present in the map. -/
def OkParent (m : NodeMap) (pid : Option String) : Prop :=
  ∀ p, pid = some p → p ∈ nodeIds m

theorem parentsPresent_mapSet {m : NodeMap} {n : HierarchicalNode}
    (hm : ParentsPresent m) (hn : OkParent m n.parentId) :
    ParentsPresent (mapSet m n) := by
  intro y hy p hp
  rcases mem_mapSet_elim hy with hy | rfl
  · exact mem_nodeIds_mapSet_of (hm y hy p hp)
  · exact mem_nodeIds_mapSet_of (hn p hp)

mutual
theorem nodeIds_scanEntry_mono (d : String) (pid : Option String) (m : NodeMap)
    (e : FSEntry) (i : String) (h : i ∈ nodeIds m) : i ∈ nodeIds (scanEntry d pid m e) := by
  cases e with
  | dir name readable es =>
    rw [scanEntry]
    by_cases hr : readable
    · simp only [hr, if_true]
      exact nodeIds_scanEntries_mono _ _ _ es i (mem_nodeIds_mapSet_of h)
    · simp only [hr, if_false]
      exact mem_nodeIds_mapSet_of h
  | file name readable sz content =>
    rw [scanEntry]
    split
    · exact mem_nodeIds_mapSet_of h
    · exact h
theorem nodeIds_scanEntries_mono (d : String) (pid : Option String) (m : NodeMap)
    (l : List FSEntry) (i : String) (h : i ∈ nodeIds m) :
    i ∈ nodeIds (scanEntries d pid m l) := by
  cases l with
  | nil => exact h
  | cons e rest =>
    rw [scanEntries]
    exact nodeIds_scanEntries_mono _ _ _ rest i (nodeIds_scanEntry_mono _ _ _ e i h)
end

mutual
theorem parentsPresent_scanEntry (d : String) (pid : Option String) (m : NodeMap)
    (e : FSEntry) (hm : ParentsPresent m) (hp : OkParent m pid) :
    ParentsPresent (scanEntry d pid m e) := by
  cases e with
  | dir name readable es =>
    rw [scanEntry]
    by_cases hr : readable
    · simp only [hr, if_true]
      refine parentsPresent_scanEntries _ _ _ es ?_ ?_
      · exact parentsPresent_mapSet hm hp
      · intro p hpp
        cases hpp
        exact mem_nodeIds_mapSet_self _ _
    · simp only [hr, if_false]
      exact parentsPresent_mapSet hm hp
  | file name readable sz content =>
    rw [scanEntry]
    split
    · exact parentsPresent_mapSet hm hp
    · exact hm
theorem parentsPresent_scanEntries (d : String) (pid : Option String) (m : NodeMap)
    (l : List FSEntry) (hm : ParentsPresent m) (hp : OkParent m pid) :
    ParentsPresent (scanEntries d pid m l) := by
  cases l with
  | nil => exact hm
  | cons e rest =>
    rw [scanEntries]
    refine parentsPresent_scanEntries _ _ _ rest ?_ ?_
    · exact parentsPresent_scanEntry _ _ _ e hm hp
    · intro p hpp
      exact nodeIds_scanEntry_mono _ _ _ e p (hp p hpp)
end

theorem foldl_preserves_of_mem {α σ : Type _} (l0 : List α) (P : σ → Prop) (f : σ → α → σ)
    (h : ∀ s a, a ∈ l0 → P s → P (f s a)) :
    ∀ (l : List α), (∀ a ∈ l, a ∈ l0) → ∀ s, P s → P (l.foldl f s) := by
  intro l
  induction l with
  | nil => intro _ s hs; exact hs
  | cons a rest ih =>
    intro hsub s hs
    exact ih (fun b hb => hsub b (List.mem_cons_of_mem a hb)) _
      (h s a (hsub a (List.mem_cons_self a rest)) hs)

theorem parentsPresent_analyzeFiles (extract : Extractor) (deps : DepExtractor)
    (files : List (String × Bool × String)) (m : NodeMap) (hm : ParentsPresent m) :
    ParentsPresent (analyzeFiles extract deps files m) := by
  unfold analyzeFiles
  have main :
      (ParentsPresent (m.foldl
        (fun acc n =>
          if n.type == "file" then
            match readFileAt files n.path with
            | none => acc
            | some content =>
              let acc1 := mapSet acc { n with content := some content }
              (extract content (n.language.getD "unknown")).foldl
                (fun a el => mapSet a (elementNode deps n el)) acc1
          else acc)
        m)) ∧ (∀ i ∈ nodeIds m, i ∈ nodeIds (m.foldl
        (fun acc n =>
          if n.type == "file" then
            match readFileAt files n.path with
            | none => acc
            | some content =>
              let acc1 := mapSet acc { n with content := some content }
              (extract content (n.language.getD "unknown")).foldl
                (fun a el => mapSet a (elementNode deps n el)) acc1
          else acc)
        m)) := by
    refine foldl_preserves_of_mem m
      (fun acc => ParentsPresent acc ∧ ∀ i ∈ nodeIds m, i ∈ nodeIds acc) _
      ?_ m (fun a ha => ha) m ⟨hm, fun i hi => hi⟩
    intro acc n hn hacc
    dsimp only
    split
    · split
      · exact hacc
      · rename_i content _
        have hparent : OkParent acc ({ n with content := some content } : HierarchicalNode).parentId := by
          intro p hp
          exact hacc.2 p (hm n hn p hp)
        have hacc1 : ParentsPresent (mapSet acc { n with content := some content }) ∧
            (∀ i ∈ nodeIds m, i ∈ nodeIds (mapSet acc { n with content := some content })) ∧
            n.id ∈ nodeIds (mapSet acc { n with content := some content }) := by
          refine ⟨parentsPresent_mapSet hacc.1 hparent,
            fun i hi => mem_nodeIds_mapSet_of (hacc.2 i hi), ?_⟩
          exact mem_nodeIds_mapSet_self acc { n with content := some content }
        have := foldl_preserves
          (fun a => ParentsPresent a ∧ (∀ i ∈ nodeIds m, i ∈ nodeIds a) ∧ n.id ∈ nodeIds a)
          (fun a el => mapSet a (elementNode deps n el)) ?_
          (extract content (n.language.getD "unknown")) _ hacc1
        · exact ⟨this.1, this.2.1⟩
        · intro a el ha
          refine ⟨parentsPresent_mapSet ha.1 ?_, fun i hi => mem_nodeIds_mapSet_of (ha.2.1 i hi),
            mem_nodeIds_mapSet_of ha.2.2⟩
          intro p hp
          cases hp
          exact ha.2.2
    · exact hacc
  exact main.1

theorem nodeIds_pushChild (m : NodeMap) (p c : String) :
    nodeIds (pushChild m p c) = nodeIds m := by
  unfold pushChild nodeIds
  rw [List.map_map]
  refine List.map_congr_left ?_
  intro x _
  dsimp only [Function.comp]
  split <;> rfl

theorem mem_pushChild_elim {m : NodeMap} {p c : String} {x : HierarchicalNode}
    (hx : x ∈ pushChild m p c) : ∃ y ∈ m, x.id = y.id ∧ x.parentId = y.parentId := by
  unfold pushChild at hx
  rcases List.mem_map.mp hx with ⟨y, hy, hyx⟩
  refine ⟨y, hy, ?_⟩
  rw [← hyx]
  split <;> exact ⟨rfl, rfl⟩

theorem parentsPresent_buildRelationships (m : NodeMap) (hm : ParentsPresent m) :
    ParentsPresent (buildRelationships m) := by
  unfold buildRelationships
  have main := foldl_preserves
    (fun acc => nodeIds acc = nodeIds m ∧
      ∀ x ∈ acc, ∃ y ∈ m, x.id = y.id ∧ x.parentId = y.parentId)
    (fun acc n =>
      match n.parentId with
      | some p => if acc.any (fun x => x.id == p) then pushChild acc p n.id else acc
      | none => acc)
    ?_ m m ⟨rfl, fun x hx => ⟨x, hx, rfl, rfl⟩⟩
  · intro x hx q hq
    rcases main.2 x hx with ⟨y, hy, hid, hpar⟩
    rw [main.1]
    exact hm y hy q (hpar ▸ hq)
  · intro acc n hacc
    dsimp only
    split
    · split
      · rename_i p _ _
        refine ⟨(nodeIds_pushChild acc p n.id).trans hacc.1, ?_⟩
        intro x hx
        rcases mem_pushChild_elim hx with ⟨y, hy, hid, hpar⟩
        rcases hacc.2 y hy with ⟨z, hz, hid2, hpar2⟩
        exact ⟨z, hz, hid.trans hid2, hpar.trans hpar2⟩
      · exact hacc
    · exact hacc

theorem parentsPresent_buildHierarchyFrom (extract : Extractor) (deps : DepExtractor)
    (rootPath : String) (root : FSEntry) (m0 : NodeMap) (h0 : ParentsPresent m0) :
    ParentsPresent (buildHierarchyFrom extract deps rootPath root m0) := by
  unfold buildHierarchyFrom
  refine parentsPresent_buildRelationships _ (parentsPresent_analyzeFiles _ _ _ _ ?_)
  match root with
  | FSEntry.dir _ true es =>
    exact parentsPresent_scanEntries _ _ _ es h0 (fun p hp => by cases hp)
  | FSEntry.dir _ false _ => exact h0
  | FSEntry.file _ _ _ _ => exact h0

/-- A root directory with two subdirectories: both of their nodes come out
of `buildHierarchy` with an absent `parentId`, because `scanDirectory` never
creates a node for `rootPath` itself. -/
def cexTwoRoots : FSEntry :=
  FSEntry.dir "r" true [FSEntry.dir "a" true [], FSEntry.dir "b" true []]

/-- Claim C4 counterexample: on a directory tree with two entries below the
root, the build result contains two nodes with a null/absent `parentId`, not
exactly one. -/
theorem claim_C4_counterexample :
    ((buildHierarchy emptyExtractor emptyDepExtractor "/r" cexTwoRoots).filter
      (fun n => n.parentId == none)).length = 2 := by decide

/-- Claim C4 as amended: `buildHierarchy` creates no node for the root
directory itself, so its direct entries (possibly several) have an absent
`parentId`; but every node whose `parentId` is set references a node present
in the same build result (no dangling parent ids). -/
theorem claim_C4_no_dangling_parents (extract : Extractor) (deps : DepExtractor)
    (rootPath : String) (root : FSEntry) (n : HierarchicalNode)
    (hn : n ∈ buildHierarchy extract deps rootPath root) (p : String)
    (hp : n.parentId = some p) :
    p ∈ nodeIds (buildHierarchy extract deps rootPath root) :=
  parentsPresent_buildHierarchyFrom extract deps rootPath root [] (by intro x hx; cases hx)
    n hn p hp

/-- A nested tree whose file node carries a parent reference. -/
def nestedTree : FSEntry :=
  FSEntry.dir "r" true [FSEntry.dir "a" true [FSEntry.file "m.ts" true 1 "x"]]

/-- The file node of `nestedTree` as it appears after the build. -/
def nestedFileNode : HierarchicalNode :=
  { id := generateNodeId "/r/a/m.ts", type := "file", name := "m.ts",
    path := "/r/a/m.ts", parentId := some (generateNodeId "/r/a"), children := [],
    content := some "x", size := some 1, language := some "typescript",
    complexity := none, dependencies := none }

theorem claim_C4_no_dangling_parents_witness :
    nestedFileNode ∈ buildHierarchy emptyExtractor emptyDepExtractor "/r" nestedTree ∧
    nestedFileNode.parentId = some (generateNodeId "/r/a") ∧
    generateNodeId "/r/a" ∈
      nodeIds (buildHierarchy emptyExtractor emptyDepExtractor "/r" nestedTree) :=
  ⟨by decide, rfl,
    claim_C4_no_dangling_parents emptyExtractor emptyDepExtractor "/r" nestedTree
      nestedFileNode (by decide) (generateNodeId "/r/a") rfl⟩

/-! ### Claim C8: duplicate element names collide on one id -/

theorem nodeIds_mapSet_of_mem {m : NodeMap} {n : HierarchicalNode}
    (h : (m.any (fun x => x.id == n.id)) = true) :
    nodeIds (mapSet m n) = nodeIds m := by
  unfold mapSet nodeIds
  rw [if_pos h, List.map_map]
  refine List.map_congr_left ?_
  intro x _
  dsimp only [Function.comp]
  split
  · rename_i hc
    exact (eq_of_beq (by simpa using hc)).symm
  · rfl

theorem nodupIds_mapSet {m : NodeMap} {n : HierarchicalNode}
    (h : (nodeIds m).Nodup) : (nodeIds (mapSet m n)).Nodup := by
  by_cases hc : (m.any (fun x => x.id == n.id)) = true
  · rw [nodeIds_mapSet_of_mem hc]; exact h
  · unfold mapSet
    rw [if_neg hc]
    unfold nodeIds
    rw [List.map_append]
    simp only [List.map_cons, List.map_nil]
    rw [List.nodup_append]
    refine ⟨h, List.nodup_singleton _, ?_⟩
    intro i hi hi1
    have : i = n.id := by simpa using hi1
    subst this
    rcases List.mem_map.mp hi with ⟨y, hy, hyid⟩
    exact hc (List.any_eq_true.mpr ⟨y, hy, by simp [hyid]⟩)

mutual
theorem nodupIds_scanEntry (d : String) (pid : Option String) (m : NodeMap)
    (e : FSEntry) (h : (nodeIds m).Nodup) : (nodeIds (scanEntry d pid m e)).Nodup := by
  cases e with
  | dir name readable es =>
    rw [scanEntry]
    by_cases hr : readable
    · simp only [hr, if_true]
      exact nodupIds_scanEntries _ _ _ es (nodupIds_mapSet h)
    · simp only [hr, if_false]
      exact nodupIds_mapSet h
  | file name readable sz content =>
    rw [scanEntry]
    split
    · exact nodupIds_mapSet h
    · exact h
theorem nodupIds_scanEntries (d : String) (pid : Option String) (m : NodeMap)
    (l : List FSEntry) (h : (nodeIds m).Nodup) : (nodeIds (scanEntries d pid m l)).Nodup := by
  cases l with
  | nil => exact h
  | cons e rest =>
    rw [scanEntries]
    exact nodupIds_scanEntries _ _ _ rest (nodupIds_scanEntry _ _ _ e h)
end

theorem nodupIds_analyzeFiles (extract : Extractor) (deps : DepExtractor)
    (files : List (String × Bool × String)) (m : NodeMap) (h : (nodeIds m).Nodup) :
    (nodeIds (analyzeFiles extract deps files m)).Nodup := by
  unfold analyzeFiles
  refine foldl_preserves (fun acc => (nodeIds acc).Nodup) _ ?_ m m h
  intro acc n hacc
  dsimp only
  split
  · split
    · exact hacc
    · exact foldl_preserves (fun a => (nodeIds a).Nodup) _
        (fun a el ha => nodupIds_mapSet ha) _ _ (nodupIds_mapSet hacc)
  · exact hacc

theorem nodeIds_buildRelationships (m : NodeMap) :
    nodeIds (buildRelationships m) = nodeIds m := by
  unfold buildRelationships
  refine foldl_preserves (fun acc => nodeIds acc = nodeIds m) _ ?_ m m rfl
  intro acc n hacc
  dsimp only
  split
  · split
    · rename_i p _ _
      exact (nodeIds_pushChild acc p n.id).trans hacc
    · exact hacc
  · exact hacc

theorem nodupIds_buildHierarchy (extract : Extractor) (deps : DepExtractor)
    (rootPath : String) (root : FSEntry) :
    (nodeIds (buildHierarchy extract deps rootPath root)).Nodup := by
  unfold buildHierarchy buildHierarchyFrom
  rw [nodeIds_buildRelationships]
  refine nodupIds_analyzeFiles _ _ _ _ ?_
  match root with
  | FSEntry.dir _ true es => exact nodupIds_scanEntries _ _ _ es List.nodup_nil
  | FSEntry.dir _ false _ => exact List.nodup_nil
  | FSEntry.file _ _ _ _ => exact List.nodup_nil

theorem string_append_cancel_left {s a b : String} (h : s ++ a = s ++ b) : a = b := by
  have hd : (s ++ a).data = (s ++ b).data := by rw [h]
  simp only [String.data_append] at hd
  exact String.ext (List.append_cancel_left hd)

theorem find?_map_mapSetFn {m : NodeMap} {n : HierarchicalNode} :
    ((m.map (fun x => if x.id == n.id then n else x)).find? (fun x => x.id == n.id)) =
      if m.any (fun x => x.id == n.id) then some n else none := by
  induction m with
  | nil => rfl
  | cons y rest ih =>
    simp only [List.map_cons, List.any_cons]
    by_cases hy : y.id == n.id
    · simp [List.find?_cons, hy]
    · have hyf : (y.id == n.id) = false := by simpa using hy
      simp only [hyf, Bool.false_eq_true, if_false, List.find?_cons, Bool.false_or]
      exact ih

theorem getNode_mapSet_self (m : NodeMap) (n : HierarchicalNode) :
    getNode (mapSet m n) n.id = some n := by
  unfold getNode mapSet
  split
  · rename_i h
    rw [find?_map_mapSetFn, if_pos h]
  · rename_i h
    rw [List.find?_append]
    have hnone : m.find? (fun x => x.id == n.id) = none := by
      rw [List.find?_eq_none]
      intro x hx hxid
      exact h (List.any_eq_true.mpr ⟨x, hx, hxid⟩)
    rw [hnone]
    simp [List.find?_cons]

theorem getNode_mapSet_ne (m : NodeMap) (n : HierarchicalNode) (i : String)
    (hne : ¬(n.id = i)) : getNode (mapSet m n) i = getNode m i := by
  unfold getNode mapSet
  split
  · rename_i hany
    clear hany
    induction m with
    | nil => rfl
    | cons y rest ih =>
      simp only [List.map_cons, List.find?_cons]
      by_cases hy : y.id == n.id
      · have h1 : (n.id == i) = false := by simpa using hne
        have h2 : (y.id == i) = false := by
          have := eq_of_beq hy
          simpa [this] using hne
        simp only [hy, if_true, h1, h2, Bool.false_eq_true]
        exact ih
      · have hyf : (y.id == n.id) = false := by simpa using hy
        simp only [hyf, Bool.false_eq_true, if_false]
        by_cases hyi : y.id == i
        · simp [hyi]
        · have hyif : (y.id == i) = false := by simpa using hyi
          simp only [hyif, Bool.false_eq_true]
          exact ih
  · rw [List.find?_append]
    have h1 : ([n].find? (fun x => x.id == i)) = none := by
      simp [List.find?_cons, hne]
    rw [h1]
    cases m.find? (fun x => x.id == i) <;> rfl

/-- The last element of the extraction list carrying a given name (it is the
one whose node survives in the map). -/
def lastNamed (els : List CodeElement) (nm : String) : Option CodeElement :=
  els.reverse.find? (fun e => e.name == nm)

theorem getNode_elementFold_untouched (deps : DepExtractor) (fn : HierarchicalNode)
    (i : String) : ∀ (els : List CodeElement) (m : NodeMap),
    (∀ e ∈ els, ¬((elementNode deps fn e).id = i)) →
    getNode (els.foldl (fun a e => mapSet a (elementNode deps fn e)) m) i = getNode m i := by
  intro els
  induction els with
  | nil => intro m _; rfl
  | cons e rest ih =>
    intro m h
    simp only [List.foldl_cons]
    rw [ih _ (fun e' he' => h e' (List.mem_cons_of_mem e he'))]
    exact getNode_mapSet_ne _ _ _ (h e (List.mem_cons_self e rest))

theorem getNode_elementFold_lastNamed (deps : DepExtractor) (fn : HierarchicalNode) :
    ∀ (els : List CodeElement) (nm : String) (el : CodeElement) (m : NodeMap),
    lastNamed els nm = some el →
    getNode (els.foldl (fun a e => mapSet a (elementNode deps fn e)) m)
      (fn.id ++ "_" ++ nm) = some (elementNode deps fn el) := by
  intro els
  induction els with
  | nil => intro nm el m h; cases h
  | cons e rest ih =>
    intro nm el m h
    unfold lastNamed at h
    rw [List.reverse_cons, List.find?_append] at h
    simp only [List.foldl_cons]
    cases hrest : rest.reverse.find? (fun x => x.name == nm) with
    | some el' =>
      rw [hrest] at h
      simp only [Option.or_some] at h
      have hel : el' = el := by
        cases h
        rfl
      subst hel
      exact ih nm el' (mapSet m (elementNode deps fn e)) hrest
    | none =>
      rw [hrest] at h
      simp only [Option.none_or] at h
      by_cases hname : e.name == nm
      · have he : e = el := by
          simp only [List.find?_cons, hname] at h
          cases h
          rfl
        subst he
        have huntouched : ∀ e' ∈ rest, ¬((elementNode deps fn e').id = fn.id ++ "_" ++ nm) := by
          intro e' he' habs
          have hno : ∀ x ∈ rest.reverse, ¬((fun x => x.name == nm) x = true) :=
            List.find?_eq_none.mp hrest
          refine hno e' (List.mem_reverse.mpr he') ?_
          have : fn.id ++ "_" ++ e'.name = fn.id ++ "_" ++ nm := habs
          have hnm : e'.name = nm := by
            have h2 : fn.id ++ ("_" ++ e'.name) = fn.id ++ ("_" ++ nm) := by
              simpa [String.append_assoc] using this
            have h3 := string_append_cancel_left h2
            exact string_append_cancel_left h3
          simp [hnm]
        rw [getNode_elementFold_untouched deps fn _ rest _ huntouched]
        have hid : (elementNode deps fn e).id = fn.id ++ "_" ++ nm := by
          have : e.name = nm := eq_of_beq hname
          simp [elementNode, this]
        rw [← hid]
        exact getNode_mapSet_self _ _
      · have hnf : (e.name == nm) = false := by simpa using hname
        simp [List.find?_cons, hnf] at h

/-- Claim C8: two extracted elements with the same name get the same node id
(the parent file's id joined with the element name), node ids are unique in
the build result (so at most one node with that id exists), and after the
element loop the node stored under the collided id is the one built from the
last same-named element of the extraction list (later elements silently
overwrite earlier ones). -/
theorem claim_C8_element_id_collision :
    (∀ (deps : DepExtractor) (fn : HierarchicalNode) (el1 el2 : CodeElement),
      el1.name = el2.name →
      (elementNode deps fn el1).id = (elementNode deps fn el2).id)
    ∧ (∀ (extract : Extractor) (deps : DepExtractor) (rootPath : String) (root : FSEntry),
      (nodeIds (buildHierarchy extract deps rootPath root)).Nodup)
    ∧ (∀ (deps : DepExtractor) (fn : HierarchicalNode) (els : List CodeElement)
      (nm : String) (el : CodeElement) (m : NodeMap), lastNamed els nm = some el →
      getNode (els.foldl (fun a e => mapSet a (elementNode deps fn e)) m)
        (fn.id ++ "_" ++ nm) = some (elementNode deps fn el)) := by
  refine ⟨?_, nodupIds_buildHierarchy, ?_⟩
  · intro deps fn el1 el2 hname
    simp [elementNode, hname]
  · intro deps fn els nm el m h
    exact getNode_elementFold_lastNamed deps fn els nm el m h

/-- First of two colliding elements. -/
def elW1 : CodeElement := { name := "f", kind := ElemKind.efunction, content := "body1" }

/-- Second of two colliding elements; it wins. -/
def elW2 : CodeElement := { name := "f", kind := ElemKind.efunction, content := "body2" }

theorem claim_C8_element_id_collision_witness :
    ((elementNode emptyDepExtractor nestedFileNode elW1).id
      = (elementNode emptyDepExtractor nestedFileNode elW2).id)
    ∧ getNode ([elW1, elW2].foldl
        (fun a e => mapSet a (elementNode emptyDepExtractor nestedFileNode e)) [])
        (nestedFileNode.id ++ "_" ++ "f")
      = some (elementNode emptyDepExtractor nestedFileNode elW2) :=
  ⟨claim_C8_element_id_collision.1 emptyDepExtractor nestedFileNode elW1 elW2 rfl,
    claim_C8_element_id_collision.2.2 emptyDepExtractor nestedFileNode [elW1, elW2] "f"
      elW2 [] (by decide)⟩

/-! ### Claim C2: re-indexing and insert-or-replace -/

/-- Every stored vector/structural row id was drawn from the uuid counter. -/
def UuidFresh (st : SearchState) : Prop :=
  (∀ v ∈ st.vectors, ∃ k < st.uuidCtr, v.id = uuidStr k) ∧
  (∀ r ∈ st.structuralIndex, ∃ k < st.uuidCtr, r.id = uuidStr k)

/-- Number of nodes with truthy content (those the indexer stores). -/
def contentNodeCount (m : NodeMap) : Nat := (m.filter contentTruthy).length

theorem upsertRow_fresh {α : Type} (key : α → String) (rows : List α) (r : α)
    (h : ∀ x ∈ rows, ¬(key x = key r)) : upsertRow key rows r = rows ++ [r] := by
  unfold upsertRow
  congr 1
  refine List.filter_eq_self.mpr ?_
  intro x hx
  simpa using h x hx

theorem uuidStr_ne_of_lt {k n : Nat} (h : k < n) : ¬(uuidStr k = uuidStr n) := by
  intro habs
  exact absurd (uuidStr_injective habs) (by omega)

/-- The vector row `codebaseStep` stores for a content-bearing node. -/
def codebaseVector (gid : String) (rag : NodeMap) (s : SearchState)
    (n : HierarchicalNode) : MetadataVector :=
  { id := uuidStr s.uuidCtr, guidanceId := gid, type := "codebase",
    content := n.content.getD "",
    embedding := generateEmbedding (n.content.getD ""), source := n.path,
    path := n.path, hierarchy := some (getHierarchyPath rag n),
    tags := some (extractTags n), createdAt := s.time }

theorem codebaseStep_content (gid : String) (rag : NodeMap) (s : SearchState)
    (n : HierarchicalNode) (hc : contentTruthy n = true) :
    codebaseStep gid rag s n = storeStructuralIndex gid rag n
      { s with uuidCtr := s.uuidCtr + 1,
               vectors := upsertRow (fun x => x.id) s.vectors (codebaseVector gid rag s n) } := by
  unfold codebaseStep
  rw [if_pos hc]
  rfl

theorem indexCodebaseFold (gid : String) (rag : NodeMap) :
    ∀ (l : NodeMap) (s : SearchState), UuidFresh s →
    (l.foldl (codebaseStep gid rag) s).vectors.length
        = s.vectors.length + contentNodeCount l
    ∧ (l.foldl (codebaseStep gid rag) s).structuralIndex.length
        = s.structuralIndex.length + contentNodeCount l
    ∧ UuidFresh (l.foldl (codebaseStep gid rag) s)
    ∧ (l.foldl (codebaseStep gid rag) s).vectors.take s.vectors.length = s.vectors := by
  intro l
  induction l with
  | nil =>
    intro s hs
    exact ⟨by simp [contentNodeCount], by simp [contentNodeCount],
      hs, by simp [List.take_length]⟩
  | cons n rest ih =>
    intro s hs
    simp only [List.foldl_cons]
    by_cases hc : contentTruthy n
    · rw [codebaseStep_content gid rag s n hc]
      set s1 : SearchState :=
        { s with uuidCtr := s.uuidCtr + 1,
                 vectors := upsertRow (fun x => x.id) s.vectors (codebaseVector gid rag s n) }
        with hs1
      have hvecs : (storeStructuralIndex gid rag n s1).vectors = s.vectors ++ [codebaseVector gid rag s n] := by
        rw [vectors_storeStructuralIndex, hs1]
        exact upsertRow_fresh _ _ _ (by
          intro x hx
          rcases hs.1 x hx with ⟨k, hk, hid⟩
          rw [hid]
          exact uuidStr_ne_of_lt hk)
      have hstruct : ∃ row : StructuralRow,
          (storeStructuralIndex gid rag n s1).structuralIndex
            = s.structuralIndex ++ [row] := by
        refine ⟨{ id := uuidStr (s.uuidCtr + 1), guidance_id := gid, node_id := n.id,
                  hierarchy_path := String.intercalate "/" (getHierarchyPath rag n),
                  tags := String.intercalate "," (extractTags n),
                  content_hash := simpleHash (n.content.getD ""),
                  created_at := s.time }, ?_⟩
        unfold storeStructuralIndex freshUuid
        dsimp only
        exact upsertRow_fresh _ _ _ (by
          intro x hx
          rcases hs.2 x hx with ⟨k, hk, hid⟩
          rw [hid]
          exact uuidStr_ne_of_lt (show k < s.uuidCtr + 1 by omega))
      have hctr : (storeStructuralIndex gid rag n s1).uuidCtr = s.uuidCtr + 2 := rfl
      have hsid : ∀ row ∈ (storeStructuralIndex gid rag n s1).structuralIndex,
          ∃ k < s.uuidCtr + 2, row.id = uuidStr k := by
        intro row hrow
        unfold storeStructuralIndex freshUuid at hrow
        dsimp only at hrow
        rcases mem_upsertRow _ _ _ _ hrow with hrow | hrow
        · rcases hs.2 row hrow with ⟨k, hk, hid⟩
          exact ⟨k, by omega, hid⟩
        · subst hrow
          exact ⟨s.uuidCtr + 1, by omega, rfl⟩
      have hfresh : UuidFresh (storeStructuralIndex gid rag n s1) := by
        constructor
        · intro x hx
          rw [hvecs] at hx
          rw [hctr]
          rcases List.mem_append.mp hx with hx | hx
          · rcases hs.1 x hx with ⟨k, hk, hid⟩
            exact ⟨k, by omega, hid⟩
          · rw [List.mem_singleton.mp hx]
            exact ⟨s.uuidCtr, by omega, rfl⟩
        · rw [hctr]
          exact hsid
      rcases ih _ hfresh with ⟨h1, h2, h3, h4⟩
      rcases hstruct with ⟨row, hrow⟩
      refine ⟨?_, ?_, h3, ?_⟩
      · rw [h1, hvecs]
        simp only [List.length_append, List.length_cons, List.length_nil]
        simp only [contentNodeCount, List.filter_cons, hc, if_true, List.length_cons]
        omega
      · rw [h2, hrow]
        simp only [List.length_append, List.length_cons, List.length_nil]
        simp only [contentNodeCount, List.filter_cons, hc, if_true, List.length_cons]
        omega
      · have hfull := h4
        rw [hvecs] at hfull
        have : (rest.foldl (codebaseStep gid rag) (storeStructuralIndex gid rag n s1)).vectors.take s.vectors.length
            = ((rest.foldl (codebaseStep gid rag) (storeStructuralIndex gid rag n s1)).vectors.take
                (s.vectors ++ [codebaseVector gid rag s n]).length).take s.vectors.length := by
          rw [List.take_take]
          congr 1
          simp only [List.length_append, List.length_cons, List.length_nil]
          omega
        rw [this, hfull]
        rw [List.take_append_of_le_length (le_refl _)]
        simp [List.take_length]
    · have hstep : codebaseStep gid rag s n = s := by
        unfold codebaseStep
        rw [if_neg hc]
      rw [hstep]
      rcases ih s hs with ⟨h1, h2, h3, h4⟩
      have hcf : contentTruthy n = false := by simpa using hc
      refine ⟨?_, ?_, h3, h4⟩
      · rw [h1]
        simp [contentNodeCount, List.filter_cons, hcf]
      · rw [h2]
        simp [contentNodeCount, List.filter_cons, hcf]

/-- A root with a single indexable code file. -/
def oneFileTree : FSEntry := FSEntry.dir "r" true [FSEntry.file "m.ts" true 1 "x"]

/-- The store after indexing `oneFileTree` once into collection `g`. -/
def stPass1 : SearchState :=
  indexCodebase emptyExtractor emptyDepExtractor "g" "/r" oneFileTree emptyState

/-- The store after indexing the same collection a second time with unchanged
inputs. -/
def stPass2 : SearchState :=
  indexCodebase emptyExtractor emptyDepExtractor "g" "/r" oneFileTree stPass1

set_option maxRecDepth 1000000 in
/-- Claim C2 counterexample: re-indexing the same collection with unchanged
inputs does not preserve the set of stored record ids and does duplicate
rows.  Every store call draws a fresh `uuidv4()` primary key, so the
`INSERT OR REPLACE` never replaces: the second pass leaves the store with
two vector rows (and two structural rows) for the one logical record. -/
theorem claim_C2_counterexample :
    stPass1.vectors.map (fun v => v.id) = [uuidStr 0]
    ∧ stPass2.vectors.map (fun v => v.id) = [uuidStr 0, uuidStr 2]
    ∧ (stPass2.vectors.map (fun v => v.id)).toFinset
        ≠ (stPass1.vectors.map (fun v => v.id)).toFinset
    ∧ stPass2.vectors.map (fun v => (v.guidanceId, v.type, v.content))
        = [("g", "codebase", "x"), ("g", "codebase", "x")]
    ∧ stPass2.structuralIndex.length = 2 := by
  decide

/-- Claim C2 as amended: every `indexCodebase` pass stores its vector and
structural rows under freshly drawn uuids, so the pass only appends — the
prior rows survive unchanged and one new row per content-bearing node is
added to each table.  Re-indexing therefore duplicates rows instead of
overwriting them, and the set of stored record ids grows. -/
theorem claim_C2_fresh_ids_append (extract : Extractor) (deps : DepExtractor)
    (gid rootPath : String) (root : FSEntry) (st : SearchState) (h : UuidFresh st) :
    (indexCodebase extract deps gid rootPath root st).vectors.length
        = st.vectors.length
          + contentNodeCount (buildHierarchyFrom extract deps rootPath root st.ragNodes)
    ∧ (indexCodebase extract deps gid rootPath root st).structuralIndex.length
        = st.structuralIndex.length
          + contentNodeCount (buildHierarchyFrom extract deps rootPath root st.ragNodes)
    ∧ (indexCodebase extract deps gid rootPath root st).vectors.take st.vectors.length
        = st.vectors
    ∧ UuidFresh (indexCodebase extract deps gid rootPath root st) := by
  have h' : UuidFresh { st with
      ragNodes := buildHierarchyFrom extract deps rootPath root st.ragNodes } := h
  rcases indexCodebaseFold gid (buildHierarchyFrom extract deps rootPath root st.ragNodes)
    (buildHierarchyFrom extract deps rootPath root st.ragNodes)
    { st with ragNodes := buildHierarchyFrom extract deps rootPath root st.ragNodes } h'
    with ⟨h1, h2, h3, h4⟩
  exact ⟨h1, h2, h4, h3⟩

set_option maxRecDepth 1000000 in
theorem claim_C2_fresh_ids_append_witness :
    stPass1.vectors.length
        = emptyState.vectors.length
          + contentNodeCount (buildHierarchyFrom emptyExtractor emptyDepExtractor "/r"
              oneFileTree emptyState.ragNodes)
    ∧ stPass1.structuralIndex.length
        = emptyState.structuralIndex.length
          + contentNodeCount (buildHierarchyFrom emptyExtractor emptyDepExtractor "/r"
              oneFileTree emptyState.ragNodes)
    ∧ stPass1.vectors.take emptyState.vectors.length = emptyState.vectors
    ∧ UuidFresh stPass1 :=
  claim_C2_fresh_ids_append emptyExtractor emptyDepExtractor "g" "/r" oneFileTree emptyState
    ⟨fun v hv => absurd hv (List.not_mem_nil v), fun r hr => absurd hr (List.not_mem_nil r)⟩

/-! ### Cosine similarity bounds -/

/-- The squared norm the similarity loop accumulates for its first argument. -/
def normSqQ (e : List ℚ) : ℚ := ∑ i ∈ Finset.range e.length, e.getD i 0 * e.getD i 0

theorem normSqQ_nonneg (e : List ℚ) : 0 ≤ normSqQ e :=
  Finset.sum_nonneg fun _ _ => mul_self_nonneg _

theorem calculateSimilarity_self (e : List ℚ) (h : 0 < normSqQ e) :
    calculateSimilarity e e = 1 := by
  simp only [calculateSimilarity]
  have hA : ((∑ i ∈ Finset.range e.length, e.getD i 0 * e.getD i 0 : ℚ) : ℝ) = (normSqQ e : ℚ) := rfl
  have hpos : (0 : ℝ) < ((normSqQ e : ℚ) : ℝ) := by exact_mod_cast h
  rw [hA, Real.mul_self_sqrt hpos.le]
  exact div_self hpos.ne'

theorem calculateSimilarity_le_one (e1 e2 : List ℚ) : calculateSimilarity e1 e2 ≤ 1 := by
  simp only [calculateSimilarity]
  set dq : ℚ := ∑ i ∈ Finset.range e1.length, e1.getD i 0 * e2.getD i 0 with hdq
  set aq : ℚ := ∑ i ∈ Finset.range e1.length, e1.getD i 0 * e1.getD i 0 with haq
  set bq : ℚ := ∑ i ∈ Finset.range e1.length, e2.getD i 0 * e2.getD i 0 with hbq
  have haq0 : (0 : ℚ) ≤ aq := Finset.sum_nonneg fun i _ => mul_self_nonneg _
  have hbq0 : (0 : ℚ) ≤ bq := Finset.sum_nonneg fun i _ => mul_self_nonneg _
  have hcs : dq ^ 2 ≤ aq * bq := by
    rw [hdq, haq, hbq]
    have := Finset.sum_mul_sq_le_sq_mul_sq (Finset.range e1.length)
      (fun i => e1.getD i 0) (fun i => e2.getD i 0)
    calc (∑ i ∈ Finset.range e1.length, e1.getD i 0 * e2.getD i 0) ^ 2
        ≤ (∑ i ∈ Finset.range e1.length, e1.getD i 0 ^ 2)
          * (∑ i ∈ Finset.range e1.length, e2.getD i 0 ^ 2) := this
      _ = (∑ i ∈ Finset.range e1.length, e1.getD i 0 * e1.getD i 0)
          * (∑ i ∈ Finset.range e1.length, e2.getD i 0 * e2.getD i 0) := by
          simp [sq]
  have hdenom0 : (0 : ℝ) ≤ Real.sqrt (aq : ℝ) * Real.sqrt (bq : ℝ) :=
    mul_nonneg (Real.sqrt_nonneg _) (Real.sqrt_nonneg _)
  rcases eq_or_lt_of_le hdenom0 with hz | hp
  · rw [← hz, div_zero]
    norm_num
  · rw [div_le_one hp]
    have h1 : ((dq : ℚ) : ℝ) ≤ Real.sqrt (((dq : ℚ) : ℝ) ^ 2) := by
      rw [Real.sqrt_sq_eq_abs]
      exact le_abs_self _
    have h2 : Real.sqrt (((dq : ℚ) : ℝ) ^ 2) ≤ Real.sqrt (((aq : ℚ) : ℝ) * ((bq : ℚ) : ℝ)) := by
      refine Real.sqrt_le_sqrt ?_
      have : ((dq ^ 2 : ℚ) : ℝ) ≤ ((aq * bq : ℚ) : ℝ) := by exact_mod_cast hcs
      push_cast at this
      convert this using 1
    have h3 : Real.sqrt (((aq : ℚ) : ℝ) * ((bq : ℚ) : ℝ))
        = Real.sqrt (aq : ℝ) * Real.sqrt (bq : ℝ) := by
      rw [Real.sqrt_mul (by exact_mod_cast haq0)]
    exact h1.trans (h2.trans_eq h3)

theorem digitChar36_toNat_bounds : ∀ d < 36, 47 < (digitChar36 d).toNat ∧ (digitChar36 d).toNat < 123 := by
  decide

theorem toB36Aux_mem : ∀ (fuel n : Nat) (c : Char), c ∈ toB36Aux fuel n → ∃ d < 36, c = digitChar36 d := by
  intro fuel
  induction fuel with
  | zero => intro n c hc; cases hc
  | succ fuel ih =>
    intro n c hc
    rw [toB36Aux] at hc
    split at hc
    · rename_i h
      exact ⟨n, h, (List.mem_singleton.mp hc).symm ▸ rfl⟩
    · rcases List.mem_append.mp hc with hc | hc
      · exact ih _ c hc
      · exact ⟨n % 36, Nat.mod_lt _ (by omega), (List.mem_singleton.mp hc)⟩

theorem toB36_ne_nil (n : Nat) : toB36 n ≠ [] := by
  unfold toB36 toB36Aux
  split
  · simp
  · simp

theorem toB36_mem (n : Nat) (c : Char) (hc : c ∈ toB36 n) : ∃ d < 36, c = digitChar36 d :=
  toB36Aux_mem _ _ _ hc

theorem normSqQ_generateEmbedding_pos (t : String) : 0 < normSqQ (generateEmbedding t) := by
  have hlen : (generateEmbedding t).length = 1536 := length_generateEmbedding t
  have hx : (generateEmbedding t).getD 0 0 ≠ 0 := by
    unfold generateEmbedding
    have hcs : (simpleHash t).data = toB36 (List.foldl hashStep 0 t.data).natAbs := by
      unfold simpleHash
      rfl
    rcases hlist : (simpleHash t).data with _ | ⟨c, rest⟩
    · rw [hlist] at hcs
      exact absurd hcs.symm (toB36_ne_nil _)
    · have hcmem : c ∈ toB36 (List.foldl hashStep 0 t.data).natAbs := by
        rw [← hcs, hlist]
        exact List.mem_cons_self c rest
      rcases toB36_mem _ _ hcmem with ⟨d, hd, hcd⟩
      rcases digitChar36_toNat_bounds d hd with ⟨_, hub⟩
      have htoNat : c.toNat < 123 := by rw [hcd]; exact hub
      simp only [hlist]
      rw [show (1536 : Nat) = 1535 + 1 from rfl, List.take_succ_cons, List.map_cons,
        List.cons_append, List.getD_cons_zero]
      refine div_ne_zero ?_ (by norm_num)
      have : ((c.toNat : ℚ)) < 128 := by exact_mod_cast htoNat.trans (by norm_num)
      intro habs
      have : ((c.toNat : ℚ)) = 128 := by linarith [sub_eq_zero.mp habs]
      linarith
  refine Finset.sum_pos' (fun i _ => mul_self_nonneg _) ?_
  refine ⟨0, ?_, ?_⟩
  · rw [hlen]
    exact Finset.mem_range.mpr (by omega)
  · exact mul_self_pos.mpr hx

theorem similarity_self_generateEmbedding (t : String) :
    calculateSimilarity (generateEmbedding t) (generateEmbedding t) = 1 :=
  calculateSimilarity_self _ (normSqQ_generateEmbedding_pos t)

/-! ### Claim C5: identical documents produce a weight-1.0 edge -/

/-- The first vector row stored for two external documents with the same
content `c`. -/
def c5Vector1 (c p1 : String) : MetadataVector :=
  { id := uuidStr 0, guidanceId := "g", type := "external_doc", content := c,
    embedding := generateEmbedding c, source := p1, path := p1, hierarchy := none,
    tags := some (extractDocumentTags c), createdAt := 0 }

/-- The second vector row stored for two external documents with the same
content `c`. -/
def c5Vector2 (c p2 : String) : MetadataVector :=
  { id := uuidStr 1, guidanceId := "g", type := "external_doc", content := c,
    embedding := generateEmbedding c, source := p2, path := p2, hierarchy := none,
    tags := some (extractDocumentTags c), createdAt := 0 }

theorem c5_docs_state (c p1 p2 : String) (hc : ¬(c = "")) :
    indexExternalDocuments "g" [{ path := p1, text := some c }, { path := p2, text := some c }]
      emptyState
    = { vectors := [c5Vector1 c p1, c5Vector2 c p2], structuralIndex := [],
        knowledgeGraph := [], ragNodes := [], uuidCtr := 2, time := 0 } := by
  have hcf : (c == "") = false := by simpa using hc
  have h01 : ((uuidStr 0 == uuidStr 1) : Bool) = false := by decide
  unfold indexExternalDocuments emptyState freshUuid
  simp only [List.foldl_cons, List.foldl_nil, hcf, Bool.false_eq_true, if_false]
  unfold upsertRow
  simp only [List.filter_nil, List.nil_append, List.filter_cons, h01, Bool.not_false,
    if_true, List.filter_nil, List.nil_append, List.singleton_append]
  rfl

/-- Claim C5: indexing two external documents with identical non-empty
content into one collection stores their two vector records (with identical
embeddings, since `generateEmbedding` is a pure function of the text) and
the knowledge-graph pass stores exactly one `similar` edge between those two
records whose weight is exactly 1: the cosine similarity of identical
vectors, which exceeds the 0.7 threshold. -/
theorem claim_C5_identical_docs_edge (extract : Extractor) (deps : DepExtractor)
    (c : String) (hc : ¬(c = "")) (p1 p2 : String) :
    (indexGuidance extract deps "g" none
        (some [{ path := p1, text := some c }, { path := p2, text := some c }])
        emptyState).vectors = [c5Vector1 c p1, c5Vector2 c p2]
    ∧ (indexGuidance extract deps "g" none
        (some [{ path := p1, text := some c }, { path := p2, text := some c }])
        emptyState).knowledgeGraph
      = [{ id := uuidStr 2, source_id := uuidStr 0, target_id := uuidStr 1,
           relation_type := "similar", weight := 1, created_at := 0 }] := by
  have hstep1 : indexGuidance extract deps "g" none
      (some [{ path := p1, text := some c }, { path := p2, text := some c }]) emptyState
      = buildKnowledgeGraph "g" (indexExternalDocuments "g"
          [{ path := p1, text := some c }, { path := p2, text := some c }] emptyState) := by
    unfold indexGuidance
    rfl
  rw [hstep1, c5_docs_state c p1 p2 hc]
  have hg1 : ((c5Vector1 c p1).guidanceId == "g") = true := rfl
  have hg2 : ((c5Vector2 c p2).guidanceId == "g") = true := rfl
  unfold buildKnowledgeGraph getVectorsByGuidance
  simp only [List.filter_cons, hg1, hg2, if_true, List.filter_nil]
  simp only [utPairs, List.map_cons, List.map_nil, List.nil_append, List.append_nil,
    List.foldl_cons, List.foldl_nil]
  have hemb : calculateSimilarity (c5Vector1 c p1).embedding (c5Vector2 c p2).embedding
      = 1 := by
    show calculateSimilarity (generateEmbedding c) (generateEmbedding c) = 1
    exact similarity_self_generateEmbedding c
  rw [hemb, if_pos (by norm_num : (0.7 : ℝ) < 1)]
  unfold addRelation freshUuid upsertRow
  simp only [List.filter_nil, List.nil_append]
  exact ⟨trivial, rfl⟩

theorem claim_C5_identical_docs_edge_witness :
    (indexGuidance emptyExtractor emptyDepExtractor "g" none
        (some [{ path := "/d1.md", text := some "x" },
               { path := "/d2.md", text := some "x" }])
        emptyState).knowledgeGraph
      = [{ id := uuidStr 2, source_id := uuidStr 0, target_id := uuidStr 1,
           relation_type := "similar", weight := 1, created_at := 0 }] :=
  (claim_C5_identical_docs_edge emptyExtractor emptyDepExtractor "x" (by decide)
    "/d1.md" "/d2.md").2

/-! ### Fusion: score characterization of `combineResults` -/

/-- The weighted scores a strategy list contributes for a given record id
(one entry per occurrence of the id). -/
noncomputable def occScores (i : String) (w : ℝ) (l : List SearchResult) : List ℝ :=
  (l.filter (fun x => x.id == i)).map (fun x => x.score * w)

/-- All weighted per-strategy scores of a record id across the three
strategy lists at their fixed weights 0.4 / 0.3 / 0.3. -/
noncomputable def weightedOccs (i : String) (v s g : List SearchResult) : List ℝ :=
  occScores i 0.4 v ++ occScores i 0.3 s ++ occScores i 0.3 g

/-- Running maximum over a list, starting from an optional seed; this is how
the `Math.max` accumulation of `combineResults` evolves one id's score. -/
noncomputable def mfold : Option ℝ → List ℝ → Option ℝ
  | b, [] => b
  | some m, o :: os => mfold (some (max m o)) os
  | none, o :: os => mfold (some o) os

/-- `combined.get(id)` on the insertion-order map. -/
noncomputable def cLookup (m : List SearchResult) (i : String) : Option SearchResult :=
  m.find? (fun x => x.id == i)

theorem find?_map_id_preserving (f : SearchResult → SearchResult)
    (hf : ∀ x, (f x).id = x.id) (m : List SearchResult) (i : String) :
    (m.map f).find? (fun x => x.id == i) = (m.find? (fun x => x.id == i)).map f := by
  induction m with
  | nil => rfl
  | cons y rest ih =>
    simp only [List.map_cons, List.find?_cons]
    by_cases hy : y.id == i
    · have : ((f y).id == i) = true := by rw [hf]; exact hy
      simp [this, hy]
    · have hyf : (y.id == i) = false := by simpa using hy
      have : ((f y).id == i) = false := by rw [hf]; exact hyf
      simp only [this, hyf, Bool.false_eq_true]
      exact ih

theorem cLookup_addWeighted (w : ℝ) (m : List SearchResult) (r : SearchResult)
    (i : String) :
    cLookup (addWeighted w m r) i =
      if i = r.id then
        match cLookup m r.id with
        | some x => some { x with score := max x.score (r.score * w),
                                  relevance := jsSetDedup (x.relevance ++ r.relevance) }
        | none => some { r with score := r.score * w }
      else cLookup m i := by
  unfold addWeighted cLookup
  split
  · rename_i hany
    rw [find?_map_id_preserving _ (by intro x; split <;> rfl)]
    by_cases hi : i = r.id
    · subst hi
      rcases List.any_eq_true.mp hany with ⟨y, hy, hyid⟩
      have hsome : (m.find? (fun x => x.id == r.id)).isSome := by
        rw [List.find?_isSome]
        exact ⟨y, hy, hyid⟩
      rcases Option.isSome_iff_exists.mp hsome with ⟨x, hx⟩
      rw [hx]
      have hxid : (x.id == r.id) = true := by
        have h2 := List.find?_some hx
        exact h2
      simp only [Option.map_some', if_pos rfl]
      simp [hxid]
    · rw [if_neg hi]
      cases hx : m.find? (fun x => x.id == i) with
      | none => rfl
      | some x =>
        have hxid : (x.id == i) = true := by
          have h2 := List.find?_some hx
          exact h2
        have hxr : (x.id == r.id) = false := by
          have h3 : ¬(x.id = r.id) := by
            rw [eq_of_beq hxid]
            exact hi
          exact beq_eq_false_iff_ne.mpr h3
        simp only [Option.map_some']
        simp [hxr]
  · rename_i hany
    rw [List.find?_append]
    by_cases hi : i = r.id
    · subst hi
      have hnone : m.find? (fun x => x.id == r.id) = none := by
        rw [List.find?_eq_none]
        intro x hx hxid
        exact hany (List.any_eq_true.mpr ⟨x, hx, hxid⟩)
      rw [hnone]
      simp [List.find?_cons]
    · rw [if_neg hi]
      have hr : (({ r with score := r.score * w } : SearchResult).id == i) = false := by
        have : ¬(r.id = i) := fun h => hi h.symm
        simpa using this
      cases hx : m.find? (fun x => x.id == i) with
      | none =>
        simp [List.find?_cons, hr]
      | some x => rfl

theorem mfold_nil (b : Option ℝ) : mfold b [] = b := by
  cases b <;> simp [mfold]

theorem mfold_cons_some (s o : ℝ) (os : List ℝ) :
    mfold (some s) (o :: os) = mfold (some (max s o)) os := by
  simp [mfold]

theorem mfold_cons_none (o : ℝ) (os : List ℝ) :
    mfold none (o :: os) = mfold (some o) os := by
  simp [mfold]

theorem cLookup_foldl_addWeighted (w : ℝ) (l : List SearchResult) :
    ∀ (m : List SearchResult) (i : String),
    Option.map (fun r => r.score) (cLookup (l.foldl (addWeighted w) m) i)
      = mfold (Option.map (fun r => r.score) (cLookup m i)) (occScores i w l) := by
  induction l with
  | nil =>
    intro m i
    simp only [List.foldl_nil, occScores, List.filter_nil, List.map_nil, mfold_nil]
  | cons r rest ih =>
    intro m i
    simp only [List.foldl_cons]
    rw [ih (addWeighted w m r) i, cLookup_addWeighted]
    unfold occScores
    rw [List.filter_cons]
    by_cases hi : i = r.id
    · have hri : (r.id == i) = true := by simp [hi]
      rw [if_pos hi]
      simp only [hri, if_true, List.map_cons]
      cases hx : cLookup m r.id with
      | some x =>
        subst hi
        rw [hx]
        simp only [Option.map_some']
        rw [mfold_cons_some]
      | none =>
        subst hi
        rw [hx]
        simp only [Option.map_some', Option.map_none']
        rw [mfold_cons_none]
    · have hri : (r.id == i) = false := by
        refine beq_eq_false_iff_ne.mpr ?_
        exact fun h => hi h.symm
      rw [if_neg hi]
      simp only [hri, Bool.false_eq_true, if_false]

theorem mfold_append (xs ys : List ℝ) : ∀ b, mfold b (xs ++ ys) = mfold (mfold b xs) ys := by
  induction xs with
  | nil => intro b; rw [List.nil_append, mfold_nil]
  | cons o os ih =>
    intro b
    cases b with
    | some s =>
      rw [List.cons_append, mfold_cons_some, mfold_cons_some]
      exact ih _
    | none =>
      rw [List.cons_append, mfold_cons_none, mfold_cons_none]
      exact ih _

theorem mfold_isMax : ∀ (xs : List ℝ) (b : Option ℝ) (mx : ℝ), mfold b xs = some mx →
    (mx ∈ xs ∨ b = some mx) ∧ (∀ x ∈ xs, x ≤ mx) ∧ (∀ s, b = some s → s ≤ mx) := by
  intro xs
  induction xs with
  | nil =>
    intro b mx h
    rw [mfold_nil] at h
    refine ⟨Or.inr h, by simp, fun s hs => ?_⟩
    rw [hs] at h
    exact le_of_eq (by injection h)
  | cons o os ih =>
    intro b mx h
    cases b with
    | some s =>
      rw [mfold_cons_some] at h
      rcases ih _ _ h with ⟨h1, h2, h3⟩
      have hmax : max s o ≤ mx := h3 _ rfl
      constructor
      · rcases h1 with h1 | h1
        · exact Or.inl (List.mem_cons_of_mem o h1)
        · have hmx : max s o = mx := by injection h1
          rcases max_choice s o with hc | hc
          · exact Or.inr (by rw [← hmx, hc])
          · refine Or.inl ?_
            rw [← hmx, hc]
            exact List.mem_cons_self o os
      · refine ⟨?_, ?_⟩
        · intro x hx
          rcases List.mem_cons.mp hx with hx | hx
          · rw [hx]
            exact le_trans (le_max_right s o) hmax
          · exact h2 x hx
        · intro t ht
          have htt : s = t := by injection ht
          rw [← htt]
          exact le_trans (le_max_left s o) hmax
    | none =>
      rw [mfold_cons_none] at h
      rcases ih _ _ h with ⟨h1, h2, h3⟩
      have ho : o ≤ mx := h3 _ rfl
      refine ⟨?_, ?_, ?_⟩
      · rcases h1 with h1 | h1
        · exact Or.inl (List.mem_cons_of_mem o h1)
        · have hom : o = mx := by injection h1
          exact Or.inl (hom ▸ List.mem_cons_self o os)
      · intro x hx
        rcases List.mem_cons.mp hx with hx | hx
        · rw [hx]; exact ho
        · exact h2 x hx
      · intro s hs
        cases hs

theorem mfold_none_isMax (xs : List ℝ) (mx : ℝ) (h : mfold none xs = some mx) :
    mx ∈ xs ∧ ∀ x ∈ xs, x ≤ mx := by
  rcases mfold_isMax xs none mx h with ⟨h1, h2, _⟩
  rcases h1 with h1 | h1
  · exact ⟨h1, h2⟩
  · cases h1

theorem mfold_eq_none : ∀ (xs : List ℝ) (b : Option ℝ), mfold b xs = none ↔ b = none ∧ xs = [] := by
  intro xs
  induction xs with
  | nil => intro b; rw [mfold_nil]; simp
  | cons o os ih =>
    intro b
    cases b with
    | some s =>
      rw [mfold_cons_some, ih]
      simp
    | none =>
      rw [mfold_cons_none, ih]
      simp

/-- The record ids of a result list. -/
def resultIds (m : List SearchResult) : List String := m.map (fun r => r.id)

theorem resultIds_nodup_addWeighted {w : ℝ} {m : List SearchResult} {r : SearchResult}
    (h : (resultIds m).Nodup) : (resultIds (addWeighted w m r)).Nodup := by
  unfold addWeighted
  split
  · have hids : resultIds (m.map (fun x =>
        if x.id == r.id then
          { x with score := max x.score (r.score * w),
                   relevance := jsSetDedup (x.relevance ++ r.relevance) }
        else x)) = resultIds m := by
      unfold resultIds
      rw [List.map_map]
      refine List.map_congr_left ?_
      intro x _
      dsimp only [Function.comp]
      split <;> rfl
    rw [hids]
    exact h
  · rename_i hany
    unfold resultIds
    rw [List.map_append]
    simp only [List.map_cons, List.map_nil]
    rw [List.nodup_append]
    refine ⟨h, List.nodup_singleton _, ?_⟩
    intro i hi hi1
    have h2 : i = r.id := by simpa using hi1
    subst h2
    rcases List.mem_map.mp hi with ⟨y, hy, hyid⟩
    exact hany (List.any_eq_true.mpr ⟨y, hy, by simp [hyid]⟩)

theorem resultIds_nodup_foldl (w : ℝ) (l : List SearchResult) :
    ∀ m, (resultIds m).Nodup → (resultIds (l.foldl (addWeighted w) m)).Nodup := by
  induction l with
  | nil => intro m h; exact h
  | cons r rest ih =>
    intro m h
    simp only [List.foldl_cons]
    exact ih _ (resultIds_nodup_addWeighted h)

theorem cLookup_of_mem {m : List SearchResult} {r : SearchResult}
    (hnodup : (resultIds m).Nodup) (hr : r ∈ m) : cLookup m r.id = some r := by
  induction m with
  | nil => cases hr
  | cons y rest ih =>
    unfold cLookup
    rw [List.find?_cons]
    by_cases hy : y.id == r.id
    · rcases List.mem_cons.mp hr with hr | hr
      · rw [hr] at hy ⊢
        simp
      · exfalso
        have h1 : r.id ∈ resultIds rest := List.mem_map.mpr ⟨r, hr, rfl⟩
        have h2 : y.id = r.id := eq_of_beq hy
        unfold resultIds at hnodup
        rw [List.map_cons, List.nodup_cons] at hnodup
        exact hnodup.1 (h2 ▸ h1)
    · have hyf : (y.id == r.id) = false := by simpa using hy
      rw [hyf]
      simp only [Bool.false_eq_true, if_false]
      rcases List.mem_cons.mp hr with hr | hr
      · exfalso
        rw [hr] at hy
        exact hy (by simp)
      · refine ih ?_ hr
        unfold resultIds at hnodup ⊢
        rw [List.map_cons, List.nodup_cons] at hnodup
        exact hnodup.2

theorem insertDesc_perm (r : SearchResult) (l : List SearchResult) :
    List.Perm (insertDesc r l) (r :: l) := by
  induction l with
  | nil => exact List.Perm.refl _
  | cons x xs ih =>
    unfold insertDesc
    split
    · exact List.Perm.refl _
    · exact (List.Perm.cons x ih).trans (List.Perm.swap r x xs)

theorem sortByScoreDesc_perm (l : List SearchResult) :
    List.Perm (sortByScoreDesc l) l := by
  induction l with
  | nil => exact List.Perm.refl _
  | cons x xs ih =>
    unfold sortByScoreDesc
    exact (insertDesc_perm x (sortByScoreDesc xs)).trans (List.Perm.cons x ih)

theorem mem_sortByScoreDesc {r : SearchResult} {l : List SearchResult} :
    r ∈ sortByScoreDesc l ↔ r ∈ l :=
  (sortByScoreDesc_perm l).mem_iff

theorem resultIds_nodup_sortByScoreDesc {l : List SearchResult}
    (h : (resultIds l).Nodup) : (resultIds (sortByScoreDesc l)).Nodup := by
  unfold resultIds at h ⊢
  exact (((sortByScoreDesc_perm l).map (fun r => r.id)).nodup_iff).mpr h

theorem combineResults_pre_sort (v s g : List SearchResult) :
    combineResults v s g = sortByScoreDesc
      (g.foldl (addWeighted 0.3) (s.foldl (addWeighted 0.3)
        (v.foldl (addWeighted 0.4) []))) := rfl

theorem combined_scoreOf (v s g : List SearchResult) (i : String) :
    Option.map (fun r => r.score)
      (cLookup (g.foldl (addWeighted 0.3) (s.foldl (addWeighted 0.3)
        (v.foldl (addWeighted 0.4) []))) i)
      = mfold none (weightedOccs i v s g) := by
  rw [cLookup_foldl_addWeighted, cLookup_foldl_addWeighted, cLookup_foldl_addWeighted]
  unfold weightedOccs
  rw [mfold_append, mfold_append]
  rfl

theorem combined_resultIds_nodup (v s g : List SearchResult) :
    (resultIds (g.foldl (addWeighted 0.3) (s.foldl (addWeighted 0.3)
      (v.foldl (addWeighted 0.4) [])))).Nodup := by
  refine resultIds_nodup_foldl _ _ _ (resultIds_nodup_foldl _ _ _
    (resultIds_nodup_foldl _ _ _ ?_))
  simp [resultIds]

theorem combineResults_score_isMax (v s g : List SearchResult) (r : SearchResult)
    (hr : r ∈ combineResults v s g) :
    r.score ∈ weightedOccs r.id v s g ∧ ∀ x ∈ weightedOccs r.id v s g, x ≤ r.score := by
  rw [combineResults_pre_sort, mem_sortByScoreDesc] at hr
  have hlook := cLookup_of_mem (combined_resultIds_nodup v s g) hr
  have hscore := combined_scoreOf v s g r.id
  rw [hlook] at hscore
  simp only [Option.map_some'] at hscore
  exact mfold_none_isMax _ _ hscore.symm

theorem occScores_eq_nil_iff (i : String) (w : ℝ) (l : List SearchResult) :
    occScores i w l = [] ↔ ∀ x ∈ l, ¬(x.id = i) := by
  unfold occScores
  rw [List.map_eq_nil_iff, List.filter_eq_nil_iff]
  constructor
  · intro h x hx habs
    exact h x hx (by simpa using habs)
  · intro h x hx habs
    exact h x hx (by simpa using habs)

theorem combineResults_id_mem (v s g : List SearchResult) (i : String) :
    (∃ r ∈ combineResults v s g, r.id = i) ↔ ∃ r ∈ v ++ s ++ g, r.id = i := by
  rw [combineResults_pre_sort]
  have hmem : (∃ r ∈ sortByScoreDesc (g.foldl (addWeighted 0.3)
      (s.foldl (addWeighted 0.3) (v.foldl (addWeighted 0.4) []))), r.id = i)
      ↔ ∃ r ∈ g.foldl (addWeighted 0.3)
        (s.foldl (addWeighted 0.3) (v.foldl (addWeighted 0.4) [])), r.id = i := by
    constructor
    · rintro ⟨r, hr, hid⟩
      exact ⟨r, mem_sortByScoreDesc.mp hr, hid⟩
    · rintro ⟨r, hr, hid⟩
      exact ⟨r, mem_sortByScoreDesc.mpr hr, hid⟩
  rw [hmem]
  have hsome : (∃ r ∈ g.foldl (addWeighted 0.3)
      (s.foldl (addWeighted 0.3) (v.foldl (addWeighted 0.4) [])), r.id = i)
      ↔ ¬(mfold none (weightedOccs i v s g) = none) := by
    rw [← combined_scoreOf]
    constructor
    · rintro ⟨r, hr, hid⟩ habs
      rw [Option.map_eq_none'] at habs
      unfold cLookup at habs
      rw [List.find?_eq_none] at habs
      exact habs r hr (by simpa using hid)
    · intro h
      rw [Option.map_eq_none'] at h
      unfold cLookup at h
      rcases Option.ne_none_iff_exists.mp h with ⟨x, hx⟩
      refine ⟨x, List.mem_of_find?_eq_some hx.symm, ?_⟩
      have := List.find?_some hx.symm
      exact eq_of_beq this
  rw [hsome, mfold_eq_none]
  unfold weightedOccs
  simp only [true_and, List.append_eq_nil]
  rw [occScores_eq_nil_iff, occScores_eq_nil_iff, occScores_eq_nil_iff]
  constructor
  · intro h
    by_contra habs
    push_neg at habs
    refine h ⟨⟨?_, ?_⟩, ?_⟩
    · intro x hx
      exact habs x (List.mem_append_left _ (List.mem_append_left _ hx))
    · intro x hx
      exact habs x (List.mem_append_left _ (List.mem_append_right _ hx))
    · intro x hx
      exact habs x (List.mem_append_right _ hx)
  · rintro ⟨r, hr, hid⟩ ⟨⟨hv, hs2⟩, hg2⟩
    rcases List.mem_append.mp hr with hr | hr
    · rcases List.mem_append.mp hr with hr | hr
      · exact hv r hr hid
      · exact hs2 r hr hid
    · exact hg2 r hr hid

/-! ### Strategy score bounds -/

theorem calculateStructuralScore_le_one (node : HierarchicalNode) (q : String) :
    calculateStructuralScore node q ≤ 1 := by
  unfold calculateStructuralScore
  split_ifs <;> norm_num

theorem vectorSearch_score_le_one (st : SearchState) (q : String) (gid : Option String)
    (ty : String) (lim : Nat) (r : SearchResult) (hr : r ∈ vectorSearch st q gid ty lim) :
    r.score ≤ 1 := by
  unfold vectorSearch at hr
  have hr2 := mem_sortByScoreDesc.mp (List.mem_of_mem_take hr)
  rcases List.mem_map.mp hr2 with ⟨row, _, heq⟩
  rw [← heq]
  exact calculateSimilarity_le_one _ _

theorem structuralSearch_score_le_one (st : SearchState) (q : String)
    (gid : Option String) (ty : String) (lim : Nat) (r : SearchResult)
    (hr : r ∈ structuralSearch st q gid ty lim) : r.score ≤ 1 := by
  unfold structuralSearch at hr
  have hr2 := mem_sortByScoreDesc.mp (List.mem_of_mem_take hr)
  rcases List.mem_filterMap.mp hr2 with ⟨row, _, heq⟩
  rcases Option.map_eq_some'.mp heq with ⟨node, _, hnode⟩
  rw [← hnode]
  exact calculateStructuralScore_le_one _ _

theorem graphSearch_eq_nil (st : SearchState) (q : String) (gid : Option String)
    (lim : Nat) : graphSearch st q gid lim = [] := rfl

/-- Every fused score over the actual strategy outputs is at most 0.4. -/
theorem combined_score_le (st : SearchState) (q : String) (gid : Option String)
    (ty : String) (lim glim : Nat) (r : SearchResult)
    (hr : r ∈ combineResults (vectorSearch st q gid ty lim)
      (structuralSearch st q gid ty lim) (graphSearch st q gid glim)) :
    r.score ≤ 0.4 := by
  rcases combineResults_score_isMax _ _ _ r hr with ⟨hmem, _⟩
  unfold weightedOccs at hmem
  rcases List.mem_append.mp hmem with hmem | hmem
  · rcases List.mem_append.mp hmem with hmem | hmem
    · unfold occScores at hmem
      rcases List.mem_map.mp hmem with ⟨x, hx, hxe⟩
      have hx1 : x.score ≤ 1 :=
        vectorSearch_score_le_one st q gid ty lim x (List.mem_of_mem_filter hx)
      rw [← hxe]
      calc x.score * 0.4 ≤ 1 * 0.4 :=
            mul_le_mul_of_nonneg_right hx1 (by norm_num)
        _ = 0.4 := by norm_num
    · unfold occScores at hmem
      rcases List.mem_map.mp hmem with ⟨x, hx, hxe⟩
      have hx1 : x.score ≤ 1 :=
        structuralSearch_score_le_one st q gid ty lim x (List.mem_of_mem_filter hx)
      rw [← hxe]
      calc x.score * 0.3 ≤ 1 * 0.3 :=
            mul_le_mul_of_nonneg_right hx1 (by norm_num)
        _ = 0.3 := by norm_num
        _ ≤ 0.4 := by norm_num
  · rw [graphSearch_eq_nil] at hmem
    unfold occScores at hmem
    simp at hmem

/-! ### Claims C1, C3, C9, C10 -/

/-- Claim C1: in the fused list a record's score is the maximum over the
three strategies of its weighted per-strategy scores (vector times 0.4,
structural times 0.3, graph times 0.3); the fused list keeps every candidate
id of the three strategy lists (nothing is cut before fusion); and `search`
applies the `score >= threshold` cutoff and the truncation to `limit` to the
fused list after the merge, with each strategy list cut only at the earlier
`2 * limit` mark. -/
theorem claim_C1_fusion_max_then_cutoff :
    (∀ (v s g : List SearchResult) (r : SearchResult), r ∈ combineResults v s g →
      r.score ∈ weightedOccs r.id v s g ∧ ∀ x ∈ weightedOccs r.id v s g, x ≤ r.score)
    ∧ (∀ (v s g : List SearchResult) (i : String),
      (∃ r ∈ combineResults v s g, r.id = i) ↔ ∃ r ∈ v ++ s ++ g, r.id = i)
    ∧ (∀ (p : SearchParams) (st : SearchState),
      (search p st).2 = ((combineResults
          (vectorSearch st p.query p.guidanceId p.type (p.limit * 2))
          (structuralSearch st p.query p.guidanceId p.type (p.limit * 2))
          (graphSearch st p.query p.guidanceId p.limit)).filter
          (fun r => decide (p.threshold ≤ r.score))).take p.limit) :=
  ⟨combineResults_score_isMax, combineResults_id_mem, fun _ _ => rfl⟩

/-- A synthetic single-strategy result used to witness the fusion claims. -/
def r0 : SearchResult :=
  { id := "a", type := "code", content := "", score := 0, source := "", path := "",
    hierarchy := none, relevance := ["vector_similarity"] }

/-- The fused record `combineResults` produces from `r0` alone. -/
noncomputable def fused0 : SearchResult := { r0 with score := r0.score * 0.4 }

theorem claim_C1_fusion_max_then_cutoff_witness :
    (fused0.score ∈ weightedOccs fused0.id [r0] [] []
      ∧ ∀ x ∈ weightedOccs fused0.id [r0] [] [], x ≤ fused0.score)
    ∧ ((∃ r ∈ combineResults [r0] [] [], r.id = "a") ↔ ∃ r ∈ [r0] ++ [] ++ [], r.id = "a")
    ∧ (search { query := "q", guidanceId := none, type := "all", limit := 10, threshold := 0.5 } emptyState).2
      = ((combineResults
          (vectorSearch emptyState "q" none "all" 20)
          (structuralSearch emptyState "q" none "all" 20)
          (graphSearch emptyState "q" none 10)).filter
          (fun r => decide ((0.5 : ℝ) ≤ r.score))).take 10 :=
  ⟨claim_C1_fusion_max_then_cutoff.1 [r0] [] [] fused0
      (by rw [show combineResults [r0] [] [] = [fused0] from rfl]
          exact List.mem_singleton.mpr rfl),
    claim_C1_fusion_max_then_cutoff.2.1 [r0] [] [] "a",
    claim_C1_fusion_max_then_cutoff.2.2
      { query := "q", guidanceId := none, type := "all", limit := 10, threshold := 0.5 }
      emptyState⟩

/-- Claim C3: every fused score is at most 0.4 (cosine similarity is at most
1 at weight 0.4, the structural score is at most 1 at weight 0.3, and the
graph strategy returns nothing), so `search` returns the empty list whenever
the threshold exceeds 0.4 — in particular at the default threshold 0.5. -/
theorem claim_C3_high_threshold_empty (p : SearchParams) (st : SearchState)
    (h : (0.4 : ℝ) < p.threshold) : (search p st).2 = [] := by
  have heq : (search p st).2 = ((combineResults
      (vectorSearch st p.query p.guidanceId p.type (p.limit * 2))
      (structuralSearch st p.query p.guidanceId p.type (p.limit * 2))
      (graphSearch st p.query p.guidanceId p.limit)).filter
      (fun r => decide (p.threshold ≤ r.score))).take p.limit := rfl
  rw [heq]
  have hnil : (combineResults
      (vectorSearch st p.query p.guidanceId p.type (p.limit * 2))
      (structuralSearch st p.query p.guidanceId p.type (p.limit * 2))
      (graphSearch st p.query p.guidanceId p.limit)).filter
      (fun r => decide (p.threshold ≤ r.score)) = [] := by
    rw [List.filter_eq_nil_iff]
    intro r hr
    have hle := combined_score_le st p.query p.guidanceId p.type (p.limit * 2) p.limit r hr
    simp only [decide_eq_true_eq]
    intro habs
    have : p.threshold ≤ 0.4 := le_trans habs hle
    linarith
  rw [hnil]
  exact List.take_nil

theorem claim_C3_high_threshold_empty_witness :
    (search { query := "q", guidanceId := none, type := "all", limit := 10, threshold := 0.5 } emptyState).2 = [] :=
  claim_C3_high_threshold_empty
    { query := "q", guidanceId := none, type := "all", limit := 10, threshold := 0.5 }
    emptyState (by norm_num)

/-- Claim C9: a `search` call leaves the whole store state (all three tables,
the hierarchy node map, and the freshness counters) unchanged; its body only
reads. -/
theorem claim_C9_search_reads_only (p : SearchParams) (st : SearchState) :
    (search p st).1 = st := rfl

/-- Claim C10: for a fixed query, collection, type and limit over a fixed
store, raising the threshold never increases the number of results. -/
theorem claim_C10_threshold_antitone (q : String) (gid : Option String) (ty : String)
    (lim : Nat) (st : SearchState) (t1 t2 : ℝ) (h : t1 ≤ t2) :
    (search { query := q, guidanceId := gid, type := ty, limit := lim, threshold := t2 } st).2.length
      ≤ (search { query := q, guidanceId := gid, type := ty, limit := lim, threshold := t1 } st).2.length := by
  have e2 : (search { query := q, guidanceId := gid, type := ty, limit := lim, threshold := t2 } st).2 = ((combineResults
      (vectorSearch st q gid ty (lim * 2)) (structuralSearch st q gid ty (lim * 2))
      (graphSearch st q gid lim)).filter (fun r => decide (t2 ≤ r.score))).take lim := rfl
  have e1 : (search { query := q, guidanceId := gid, type := ty, limit := lim, threshold := t1 } st).2 = ((combineResults
      (vectorSearch st q gid ty (lim * 2)) (structuralSearch st q gid ty (lim * 2))
      (graphSearch st q gid lim)).filter (fun r => decide (t1 ≤ r.score))).take lim := rfl
  rw [e1, e2]
  have hsub : List.Sublist
      ((combineResults
      (vectorSearch st q gid ty (lim * 2)) (structuralSearch st q gid ty (lim * 2))
      (graphSearch st q gid lim)).filter (fun r => decide (t2 ≤ r.score)))
      ((combineResults
      (vectorSearch st q gid ty (lim * 2)) (structuralSearch st q gid ty (lim * 2))
      (graphSearch st q gid lim)).filter (fun r => decide (t1 ≤ r.score))) := by
    refine List.monotone_filter_right _ ?_
    intro r hr
    simp only [decide_eq_true_eq] at hr ⊢
    exact le_trans h hr
  rw [List.length_take, List.length_take]
  exact min_le_min (le_refl lim) hsub.length_le

theorem claim_C10_threshold_antitone_witness :
    (search { query := "q", guidanceId := none, type := "all", limit := 10, threshold := 0.5 } emptyState).2.length
      ≤ (search { query := "q", guidanceId := none, type := "all", limit := 10, threshold := 0.3 } emptyState).2.length :=
  claim_C10_threshold_antitone "q" none "all" 10 emptyState 0.3 0.5 (by norm_num)
